import Mathlib

/-!
Shallow embedding of the polymer-topology graph engine of mdfts
(src/mdfts/utils/topology.py): the Segment / ArmType data model, the
FTSTopology directed multigraph of graft edges, cycle validation
(isvalid), graft enumeration (get_grafts), structural unrolling
(fully_enumerate via add_path), and bead-level expansion
(expand_graft_to_beads / expand_to_beads).

Modelling conventions:
- Bead species names are strings (the data model of the spec; the Python
  code also tolerates int species, which no claim exercises).
- An ArmType is a Segment plus identity; the graph refers to arms only by
  integer index; hence we represent arms as an arena (a list of Segment
  records) and ArmType references as indices, which is exactly the
  information-content of the Python object-identity scheme.
- Python dynamic errors (ValueError, TypeError, IndexError) are modelled
  with Except String.  Python list indexing with possibly negative
  indices is modelled by pyIdx.
- Recursion over the graph (get_grafts, expand_graft_to_beads) does not
  structurally terminate (it terminates only on acyclic graphs), so those
  functions take an explicit fuel argument and return an error when the
  recursion depth exceeds the fuel, mirroring how the Python recursion
  either terminates or is undefined (infinite) on cyclic graphs.
  add_path is given fuel in the same style so that every definition
  reduces computationally.
-/

/-- Bead species name. -/
abbrev Species := String

/-- One entry of a compact-est segment definition: either a bare species
name (count 1) or a (species, count) pair.  This is the shape produced by
Segment.sequence_compactest and consumed by Segment.update / add_block. -/
inductive CItem where
  | bare (s : Species)
  | pair (s : Species) (n : Nat)
deriving DecidableEq, Repr

/-- Species of a compact item. -/
def CItem.species : CItem → Species
  | .bare s => s
  | .pair s _ => s

/-- Bead count of a compact item (a bare name counts 1). -/
def CItem.count : CItem → Nat
  | .bare _ => 1
  | .pair _ n => n

/-- A Segment: statistics tag plus the canonical block store
(BlockSpecies and NPerBlock, kept in lockstep as add_block does). -/
structure Segment where
  statistics : String
  blocks : List (Species × Nat)
deriving DecidableEq, Repr

/-- Segment construction from a segment definition (Segment.__init__ with
stat="DGC" followed by update: a bare name becomes a count-1 block). -/
def segFromDef (d : List CItem) : Segment :=
  ⟨"DGC", d.map fun it => (it.species, it.count)⟩

/-- Verbose bead sequence of a segment (Segment.sequence). -/
def Segment.sequence (s : Segment) : List Species :=
  (s.blocks.map fun b => List.replicate b.2 b.1).flatten

/-- Number of beads (Segment.n_beads, the sum of NPerBlock). -/
def Segment.n_beads (s : Segment) : Nat :=
  (s.blocks.map fun b => b.2).sum

/-- Run-length-encoding loop shared by Segment.sequence_compact and
Segment.sequence_compactest: cur and num hold the block being
accumulated, exactly as in the Python loop body. -/
def rleCore : Species → Nat → List Species → List (Species × Nat)
  | cur, num, [] => [(cur, num)]
  | cur, num, x :: xs =>
      if x = cur then rleCore cur (num + 1) xs
      else (cur, num) :: rleCore x 1 xs

/-- Compact sequence of (species, count) pairs (Segment.sequence_compact).
The Python code indexes full_seq[0] first, so an empty segment raises
IndexError. -/
def Segment.sequence_compact (s : Segment) : Except String (List (Species × Nat)) :=
  match s.sequence with
  | [] => .error "IndexError: tuple index out of range"
  | x :: xs => .ok (rleCore x 1 xs)

/-- Rendering step of sequence_compactest: blocks of count one are
emitted as a bare species name instead of a pair. -/
def compactestOf (l : List (Species × Nat)) : List CItem :=
  l.map fun b => if b.2 = 1 then .bare b.1 else .pair b.1 b.2

/-- Most compact sequence with count-1 blocks as bare names
(Segment.sequence_compactest; the source duplicates the RLE loop of
sequence_compact and only changes how a finished block is emitted). -/
def Segment.sequence_compactest (s : Segment) : Except String (List CItem) :=
  (s.sequence_compact).map compactestOf

/-- Python three-valued equality of Segment.__eq__ as written: it returns
False when the sequences differ, False when the statistics differ, and
then falls off the end of the function, returning None.  some b models an
explicit return, none models the fall-through None. -/
def Segment.eqPy (s other : Segment) : Option Bool :=
  if s.sequence ≠ other.sequence then some false
  else if s.statistics ≠ other.statistics then some false
  else none

/-- Attributes stored on a graft edge by add_graft. -/
structure GraftAttr where
  graft_at : List Int
  graft_from : Int
  multiplicity : Nat
deriving DecidableEq, Repr

/-- The FTSTopology state: segment list, arm arena, chain-type map
(ordered dict as an association list with unique keys) and the directed
multigraph of graft edges in insertion order. -/
structure Topo where
  segments : List Segment
  arm_types : List Segment
  chain_types : List (String × Nat)
  edges : List (Nat × Nat × GraftAttr)
deriving DecidableEq, Repr

/-- Fresh FTSTopology (FTSTopology.__init__). -/
def emptyTopo : Topo := ⟨[], [], [], []⟩

/-- Ordered-dict assignment d[k] = v: overwrite in place if the key
exists, else append. -/
def dictSet (m : List (String × Nat)) (k : String) (v : Nat) : List (String × Nat) :=
  if m.any fun p => p.1 = k then
    m.map fun p => if p.1 = k then (k, v) else p
  else m ++ [(k, v)]

/-- Ordered-dict lookup d[k] (first, hence only, binding of k). -/
def dictGet (m : List (String × Nat)) (k : String) : Option Nat :=
  (m.find? fun p => p.1 = k).map fun p => p.2

/-- FTSTopology.add_segment specialised to its internal use: append a
Segment built from the given definition. -/
def Topo.add_segment (t : Topo) (d : List CItem) : Topo × Segment :=
  let seg := segFromDef d
  ({ t with segments := t.segments ++ [seg] }, seg)

/-- FTSTopology.add_armtype on a fresh (non-int) definition: build a new
ArmType, register its sequence as a segment when no existing segment has
the same sequence, append the arm and return its index (arm identity
makes arm_types.index(arm) the position just appended). -/
def Topo.add_armtype_fresh (t : Topo) (d : List CItem) : Topo × Nat :=
  let arm := segFromDef d
  let seq := arm.sequence
  let t1 :=
    if t.segments.any fun s => s.sequence = seq then t
    else (t.add_segment (seq.map CItem.bare)).1
  ({ t1 with arm_types := t1.arm_types ++ [arm] }, t1.arm_types.length)

/-- FTSTopology.add_chaintype: add_armtype then record name → index,
auto-generating ChainN when no name is given. -/
def Topo.add_chaintype (t : Topo) (d : List CItem) (name : Option String) : Topo × Nat :=
  let p := t.add_armtype_fresh d
  let nm := name.getD ("Chain" ++ toString (p.1.chain_types.length + 1))
  ({ p.1 with chain_types := dictSet p.1.chain_types nm p.2 }, p.2)

/-- FTSTopology.add_graft with arms given by index (validate_list checks
that every graft point is an integer, which the type already guarantees;
the grafted-end check raises ValueError; note that no bounds check is
performed on the arm indices, and a duplicate edge only triggers a
warning, after which insertion proceeds). -/
def Topo.add_graft (t : Topo) (u v : Nat) (base_graft_points : List Int)
    (graft_graft_point : Int) (multiplicity : Nat) : Except String Topo :=
  if graft_graft_point ≠ 0 ∧ graft_graft_point ≠ -1 then
    .error "The grafted chain should be attached from one of its ends. Default is 0."
  else
    .ok { t with edges := t.edges ++ [(u, v, ⟨base_graft_points, graft_graft_point, multiplicity⟩)] }

/-- FTSTopology.get_armtype_index on an integer argument: bounds check
against the arm list (the comparison is done in ℤ as in Python, so it is
an error for every index when the arm list is empty). -/
def Topo.get_armtype_index_int (t : Topo) (i : Nat) : Except String Nat :=
  if (i : Int) > (t.arm_types.length : Int) - 1 then
    .error "index exceeds arm_types list"
  else .ok i

/-- Outgoing graft edges of an arm, in edge-list order: the filter
[(e1, d) for e0, e1, d in self.g.edges(data=True) if e0 == root]. -/
def Topo.outEdges (t : Topo) (root : Nat) : List (Nat × GraftAttr) :=
  t.edges.filterMap fun e => if e.1 = root then some (e.2.1, e.2.2) else none

/-- The fully enumerated occurrence list of one graft edge: the loop
for ii in range(multiplicity): for graft_point in graft_at. -/
def occsOf (d : GraftAttr) : List Int :=
  ((List.range d.multiplicity).map fun _ => d.graft_at).flatten

/-- One entry of the nested graft description returned by get_grafts and
consumed by add_path: (compact-est sequence, graft-point list, sub-grafts). -/
inductive GD where
  | mk (seq : List CItem) (pts : List Int) (subs : List GD)

/-- Sequence component of a graft description entry. -/
def GD.seq : GD → List CItem
  | .mk s _ _ => s

/-- Graft-point component of a graft description entry. -/
def GD.pts : GD → List Int
  | .mk _ p _ => p

/-- Sub-graft component of a graft description entry. -/
def GD.subs : GD → List GD
  | .mk _ _ l => l

/-- Python list indexing l[i] with negative wrap-around; out-of-range
indices raise IndexError. -/
def pyIdx (l : List Nat) (i : Int) : Except String Nat :=
  let j : Int := if i < 0 then i + l.length else i
  if h : 0 ≤ j ∧ j.toNat < l.length then .ok (l.get ⟨j.toNat, h.2⟩)
  else .error "IndexError: list index out of range"

/-- Arm lookup self.arm_types[i] (indices here are the non-negative ones
produced by the graph API, so only overflow raises). -/
def Topo.armAt (t : Topo) (i : Nat) : Except String Segment :=
  match t.arm_types[i]? with
  | some a => .ok a
  | none => .error "IndexError: list index out of range"

/-- FTSTopology.get_grafts from a root arm index: for every outgoing
graft edge (rejecting edges not grafted from bead 0), emit one entry per
(repetition, graft point) pair, each entry carrying the graft arm's
compact-est sequence, the single graft point, and the recursively
enumerated sub-grafts of the graft arm.  The fuel bounds the recursion
depth. -/
def get_grafts : Nat → Topo → Nat → Except String (List GD)
  | 0, _, _ => .error "maximum recursion depth exceeded"
  | fuel + 1, t, root =>
      (t.outEdges root).foldlM
        (fun acc ed =>
          if ed.2.graft_from ≠ 0 then
            .error "Chain enumeration currently only works if grafting from bead 0"
          else
            let occs := occsOf ed.2
            if occs.isEmpty then .ok acc
            else do
              let arm ← t.armAt ed.1
              let seqc ← arm.sequence_compactest
              let subs ← get_grafts fuel t ed.1
              .ok (acc ++ occs.map fun p => GD.mk seqc [p] subs))
        []

/-- FTSTopology.add_path in the configuration exercised by the topology
engine (mode=1, as_chain_name handled by the caller): resolve the root
(an integer index is bounds-checked by get_armtype_index, a fresh
definition is added by add_armtype), then for every branch definition
create a brand-new arm, graft it onto the root with the stated graft
points (graft end 0, multiplicity 1), and recurse into the sub-grafts via
add_path(v, sub).  Returns the new topology and the root index. -/
def add_path : Nat → Topo → Sum Nat (List CItem) → List GD → Except String (Topo × Nat)
  | 0, _, _, _ => .error "maximum recursion depth exceeded"
  | fuel + 1, t, root, defs => do
      let p ← match root with
        | .inl i => (t.get_armtype_index_int i).map fun u => (t, u)
        | .inr d => .ok (t.add_armtype_fresh d)
      let tEnd ← defs.foldlM
        (fun t2 gd => do
          let q := t2.add_armtype_fresh gd.seq
          let t3 ← q.1.add_graft p.2 q.2 gd.pts 0 1
          gd.subs.foldlM
            (fun t4 sg => (add_path fuel t4 (.inl q.2) [sg]).map fun r => r.1)
            t3)
        p.1
      .ok (tEnd, p.2)

/-- FTSTopology.fully_enumerate: for every chain type, enumerate its
grafts and replay them into a fresh topology through add_path, recording
the chain name at the new root index. -/
def fully_enumerate (fuel : Nat) (t : Topo) : Except String Topo :=
  t.chain_types.foldlM
    (fun ft ch => do
      let arm ← t.armAt ch.2
      let defs ← get_grafts fuel t ch.2
      let seqc ← arm.sequence_compactest
      let r ← add_path fuel ft (.inr seqc) defs
      .ok { r.1 with chain_types := dictSet r.1.chain_types ch.1 r.2 })
    emptyTopo

/-- FTSTopology.expand_graft_to_beads: append this arm's verbose bead
sequence, the backbone bonds, and (when grafted to a parent) the
connecting bond from the parent's attachment bead to this arm's first
bead; then recurse into every (repetition, graft point) occurrence of
every outgoing graft edge with the attachment bead's global index.  The
state is the (node_list, edge_list) pair the Python code mutates. -/
def expandRec : Nat → Topo → Nat → Option Nat → List Species × List (Nat × Nat) →
    Except String (List Species × List (Nat × Nat))
  | 0, _, _, _, _ => .error "maximum recursion depth exceeded"
  | fuel + 1, t, arm_ind, graft_index, st => do
      let arm ← t.armAt arm_ind
      let bead_names := arm.sequence
      let start_ind := st.1.length
      let bead_inds := List.range' start_ind bead_names.length
      let connector ← match graft_index with
        | none => (.ok [] : Except String (List (Nat × Nat)))
        | some g => (pyIdx bead_inds 0).map fun b0 => [(g, b0)]
      let backbone := (bead_inds.drop 1).map fun ii => (ii - 1, ii)
      let st1 := (st.1 ++ bead_names, st.2 ++ connector ++ backbone)
      (t.outEdges arm_ind).foldlM
        (fun acc ed =>
          if ed.2.graft_from ≠ 0 then
            .error "Chain enumeration currently only works if grafting from bead 0"
          else
            (occsOf ed.2).foldlM
              (fun acc2 p => do
                let gi ← pyIdx bead_inds p
                expandRec fuel t ed.1 (some gi) acc2)
              acc)
        st1

/-- FTSTopology.expand_to_beads: one (node_list, edge_list) pair per
chain type, each independently indexed from 0 (the top-level call passes
graft_index = -1, i.e. no parent). -/
def expand_to_beads (fuel : Nat) (t : Topo) :
    Except String (List (String × (List Species × List (Nat × Nat)))) :=
  t.chain_types.foldlM
    (fun chains ch => do
      let c ← expandRec fuel t ch.2 none ([], [])
      .ok (chains ++ [(ch.1, c)]))
    []

/-- Successors of a node in the graft multigraph. -/
def Topo.succs (t : Topo) (u : Nat) : List Nat :=
  (t.outEdges u).map fun e => e.1

/-- Sources of all edges (every vertex lying on a directed cycle is among
them). -/
def Topo.srcList (t : Topo) : List Nat :=
  t.edges.map fun e => e.1

/-- Bounded reachability: reachN t f u v decides whether some directed
walk of between 1 and f edges leads from u to v. -/
def reachN (t : Topo) : Nat → Nat → Nat → Bool
  | 0, _, _ => false
  | f + 1, u, v => (t.succs u).any fun w => w == v || reachN t f w v

/-- FTSTopology.isvalid.  Modelled from the spec: the source delegates to
networkx.find_cycle (external to this repository) inside try/except and
returns False exactly when a directed cycle exists; the spec describes it
as a standard directed-cycle search over the graft multigraph.  A cycle
exists iff some edge source reaches itself by a nonempty walk of at most
(number of edges) steps, which is what this decidable search tests. -/
def Topo.isvalid (t : Topo) : Bool :=
  !(t.srcList.any fun v => reachN t t.edges.length v v)

/-- Edge relation of the graft multigraph (there is an edge from u to v
with some attributes). -/
def edgeRel (t : Topo) (u v : Nat) : Prop := ∃ d, (u, v, d) ∈ t.edges

/-- Structural equality of two topologies in the sense of the spec: same
arm bead sequences, same edge topology and attributes, same chain-type
names and indices.  (The internal segment cache is not observable.) -/
def structEq (a b : Topo) : Prop :=
  a.arm_types.map Segment.sequence = b.arm_types.map Segment.sequence ∧
  a.edges = b.edges ∧ a.chain_types = b.chain_types

/-- Helper to extract the topology from a successful construction step
(used only to name concrete scenario states whose construction is proved
successful). -/
def getOk (e : Except String Topo) : Topo :=
  match e with
  | .ok t => t
  | .error _ => emptyTopo

/-- Scenario of the spec: root arm of 10 A beads as chain type Chain1,
one graft arm (B,3)(C,2). -/
def scenBase : Topo :=
  ((emptyTopo.add_chaintype [CItem.pair "A" 10] none).1.add_armtype_fresh
    [CItem.pair "B" 3, CItem.pair "C" 2]).1

/-- Scenario topology: graft edge 0 → 1 at positions [1,2,4,8], attach
end 0, multiplicity 2. -/
def scenT1 : Topo := getOk (scenBase.add_graft 0 1 [1, 2, 4, 8] 0 2)

/-- Scenario topology with the cycle-closing edge added: a second edge
from the grafted arm back to the root arm with attach_end = -1. -/
def scenT2 : Topo := getOk (scenT1.add_graft 1 0 [0] (-1) 1)

deriving instance DecidableEq for Except

section ExceptLemmas

variable {α β : Type}

/-- Bind on a successful Except value. -/
theorem exOk_bind (a : α) (f : α → Except String β) :
    (Except.ok a >>= f) = f a := rfl

/-- Bind on a failed Except value. -/
theorem exErr_bind (e : String) (f : α → Except String β) :
    ((Except.error e : Except String α) >>= f) = Except.error e := rfl

/-- Inversion of a successful monadic bind. -/
theorem exbind_ok {x : Except String α} {f : α → Except String β} {b : β} :
    (x >>= f) = Except.ok b ↔ ∃ a, x = .ok a ∧ f a = .ok b := by
  cases x <;> simp [exOk_bind, exErr_bind]

/-- Unfolding of foldlM on a cons cell. -/
theorem exfoldlM_cons (f : β → α → Except String β) (b : β) (x : α) (l : List α) :
    List.foldlM f b (x :: l) = f b x >>= fun b2 => List.foldlM f b2 l := by
  simp [List.foldlM]

/-- Unfolding of foldlM on nil. -/
theorem exfoldlM_nil (f : β → α → Except String β) (b : β) :
    List.foldlM f b [] = .ok b := rfl

/-- Congruence of bind in the continuation. -/
theorem exbind_congr {x : Except String α} {f g : α → Except String β}
    (h : ∀ a, f a = g a) : x >>= f = x >>= g := by
  cases x with
  | error e => rfl
  | ok a => rw [exOk_bind, exOk_bind, h a]

/-- Binding into ok is the identity. -/
theorem exbind_pure (x : Except String α) :
    (x >>= fun a => (.ok a : Except String α)) = x := by
  cases x <;> rfl

end ExceptLemmas

/-- Expected node list for the C2 scenario chain: 10 root A beads followed
by 8 graft occurrences of the B,B,B,C,C arm. -/
def c2Nodes : List Species :=
  List.replicate 10 "A" ++ (List.replicate 8 ["B", "B", "B", "C", "C"]).flatten

/-- Expected bond list for the C2 scenario chain: 9 backbone bonds
(i, i+1) along the root, then for each graft occurrence (listed as
(attach position, start index) pairs, in the order multiplicity-major
produced by the code with starts 10, 15, ..., 45) one connecting bond from
the root attachment bead to the occurrence's first bead followed by its 4
backbone bonds. -/
def c2Edges : List (Nat × Nat) :=
  ((List.range' 1 9).map fun i => (i - 1, i)) ++
    ([(1, 10), (2, 15), (4, 20), (8, 25), (1, 30), (2, 35), (4, 40), (8, 45)].map
      fun pr : Nat × Nat =>
        (pr.1, pr.2) :: ((List.range' (pr.2 + 1) 4).map fun i => (i - 1, i))).flatten

/-- C2: for the concrete scenario graph (root A×10, graft B×3,C×2 at
attach_positions [1,2,4,8], attach_end 0, multiplicity 2),
expand_to_beads returns for chain Chain1 exactly 50 bead names (10 root
beads plus 8 graft occurrences of 5 beads) and exactly 49 bonds: 9
backbone bonds (i, i+1) along the root and, for each of the 8 graft
occurrences, 1 connecting bond from the root attachment bead to the
occurrence's first bead plus 4 backbone bonds. -/
theorem c2_expand_scenario :
    expand_to_beads 5 scenT1 = .ok [("Chain1", (c2Nodes, c2Edges))] ∧
    c2Nodes.length = 10 + 8 * 5 ∧ c2Edges.length = 9 + 8 * (4 + 1) := by
  refine ⟨by decide, by decide, by decide⟩

/-- C9: the spec states that Segment equality compares sequence and
statistics (true when both agree); but Segment.__eq__ as written only
returns False on a mismatch and falls off the end when the segments agree,
so the comparison evaluates to None (which is falsy), never to True: on
every segment compared with itself, and in particular on the concrete
one-bead segment A, the result is the fall-through None. -/
theorem c9_eqPy_none_on_equal :
    (∀ s : Segment, s.eqPy s = none) ∧
    Segment.eqPy (segFromDef [CItem.bare "A"]) (segFromDef [CItem.bare "A"]) = none := by
  constructor
  · intro s
    simp [Segment.eqPy]
  · rfl

/-- C7 counterexample: attach_positions containing the negative integer
-5 is accepted by add_graft (validate_list only checks the entries are
integers), the call returns successfully and the edge is inserted,
contradicting the claim that such a call aborts with an error and adds no
edge. -/
theorem c7_counterexample :
    scenBase.add_graft 0 1 [-5] 0 1 =
      .ok { scenBase with edges := scenBase.edges ++ [(0, 1, ⟨[-5], 0, 1⟩)] } := rfl

/-- C7 (amended): add_graft validates that attach_end is 0 or -1 and that
the attach positions are integers (negative integers are accepted); an
invalid attach_end aborts the call with a ValueError before any edge is
inserted, and for attach_end in {0, -1} no error is raised and the edge
is appended. -/
theorem c7_amended (t : Topo) (u v : Nat) (pts : List Int) (gfrom : Int) (mult : Nat) :
    (gfrom ≠ 0 ∧ gfrom ≠ -1 →
      t.add_graft u v pts gfrom mult =
        .error "The grafted chain should be attached from one of its ends. Default is 0.") ∧
    (gfrom = 0 ∨ gfrom = -1 →
      t.add_graft u v pts gfrom mult =
        .ok { t with edges := t.edges ++ [(u, v, ⟨pts, gfrom, mult⟩)] }) := by
  constructor
  · intro h
    simp [Topo.add_graft, h.1, h.2]
  · intro h
    rcases h with h | h <;> simp [Topo.add_graft, h]

/-- C7 witness: the amended statement at attach_end 5 (rejected) and
attach_end 0 (accepted, edge appended) on the scenario base graph. -/
theorem c7_witness :
    scenBase.add_graft 0 1 [1] 5 1 =
      .error "The grafted chain should be attached from one of its ends. Default is 0." ∧
    scenBase.add_graft 0 1 [1] 0 1 =
      .ok { scenBase with edges := scenBase.edges ++ [(0, 1, ⟨[1], 0, 1⟩)] } :=
  ⟨(c7_amended scenBase 0 1 [1] 5 1).1 (by decide),
   (c7_amended scenBase 0 1 [1] 0 1).2 (Or.inl rfl)⟩

/-- C8 counterexample: the scenario graph has 2 arms, yet add_graft with
the nonexistent arm indices 5 and 9 returns successfully and inserts the
edge (networkx silently creates the nodes), contradicting the claim that
such a call aborts with a descriptive error and inserts no edge. -/
theorem c8_counterexample :
    scenT1.add_graft 5 9 [0] 0 1 =
      .ok { scenT1 with edges := scenT1.edges ++ [(5, 9, ⟨[0], 0, 1⟩)] } ∧
    scenT1.arm_types.length ≤ 5 := ⟨rfl, by decide⟩

/-- C8 (amended): add_graft itself performs no bounds check on integer
arm indices — any indices are accepted and the edge is inserted; the
bounds error of the claim is raised only by get_armtype_index (used by
add_path), which rejects an integer index at or beyond the arm count with
a descriptive error. -/
theorem c8_amended (t : Topo) (u v : Nat) (pts : List Int) (mult : Nat) (i : Nat) :
    (t.add_graft u v pts 0 mult =
      .ok { t with edges := t.edges ++ [(u, v, ⟨pts, 0, mult⟩)] }) ∧
    ((i : Int) > (t.arm_types.length : Int) - 1 →
      t.get_armtype_index_int i = .error "index exceeds arm_types list") := by
  constructor
  · simp [Topo.add_graft]
  · intro h
    simp [Topo.get_armtype_index_int, h]

/-- C8 witness: the amended statement on the scenario graph with
out-of-range indices 5 and 9. -/
theorem c8_witness :
    scenT1.add_graft 5 9 [0] 0 2 =
      .ok { scenT1 with edges := scenT1.edges ++ [(5, 9, ⟨[0], 0, 2⟩)] } ∧
    scenT1.get_armtype_index_int 5 = .error "index exceeds arm_types list" :=
  ⟨(c8_amended scenT1 5 9 [0] 2 5).1, (c8_amended scenT1 5 9 [0] 2 5).2 (by decide)⟩

/-- The occurrence list of an edge has multiplicity × |attach_positions|
entries. -/
theorem occsOf_length (d : GraftAttr) :
    (occsOf d).length = d.multiplicity * d.graft_at.length := by
  simp only [occsOf, List.length_flatten, List.map_map, Function.comp_def]
  induction d.multiplicity with
  | zero => simp
  | succ m ih =>
    simp only [List.range_succ, List.map_append, List.sum_append, ih]
    simp [Nat.succ_mul]

/-- Accumulator shape of a foldlM whose step appends, per edge, a block
of entries of known length with singleton graft-point lists. -/
theorem foldGD_ok (step : List GD → (Nat × GraftAttr) → Except String (List GD))
    (wt : (Nat × GraftAttr) → Nat)
    (hstep : ∀ acc ed r, step acc ed = .ok r →
      ∃ tl, r = acc ++ tl ∧ tl.length = wt ed ∧ ∀ gd ∈ tl, ∃ p, gd.pts = [p]) :
    ∀ (es : List (Nat × GraftAttr)) (acc defs : List GD),
      es.foldlM step acc = .ok defs →
      ∃ tl, defs = acc ++ tl ∧ tl.length = (es.map wt).sum ∧
        ∀ gd ∈ tl, ∃ p, gd.pts = [p] := by
  intro es
  induction es with
  | nil =>
    intro acc defs h
    rw [exfoldlM_nil] at h
    cases h
    exact ⟨[], by simp⟩
  | cons ed es ih =>
    intro acc defs h
    rw [exfoldlM_cons] at h
    obtain ⟨mid, hmid, hrest⟩ := exbind_ok.mp h
    obtain ⟨tl1, rfl, hlen1, hmem1⟩ := hstep acc ed mid hmid
    obtain ⟨tl2, rfl, hlen2, hmem2⟩ := ih (acc ++ tl1) _ hrest
    refine ⟨tl1 ++ tl2, by simp, by simp [hlen1, hlen2], ?_⟩
    intro gd hgd
    rcases List.mem_append.mp hgd with h1 | h2
    · exact hmem1 gd h1
    · exact hmem2 gd h2

/-- C3: whenever get_grafts succeeds from a root arm, it emits exactly
multiplicity × |attach_positions| output entries for each graft edge
leaving the root (their total being the sum over the outgoing edges, with
the entries of one edge forming one contiguous block), and every emitted
entry carries a single-element attach-position list. -/
theorem c3_get_grafts_count (fuel : Nat) (t : Topo) (root : Nat) (defs : List GD)
    (h : get_grafts fuel t root = .ok defs) :
    defs.length =
      ((t.outEdges root).map fun ed => ed.2.multiplicity * ed.2.graft_at.length).sum ∧
    ∀ gd ∈ defs, ∃ p, gd.pts = [p] := by
  cases fuel with
  | zero => exact absurd h (by simp [get_grafts])
  | succ f =>
    rw [get_grafts] at h
    have hstep : ∀ (acc : List GD) (ed : Nat × GraftAttr) (r : List GD),
        (if ed.2.graft_from ≠ 0 then
            (.error "Chain enumeration currently only works if grafting from bead 0" :
              Except String (List GD))
          else
            let occs := occsOf ed.2
            if occs.isEmpty then .ok acc
            else do
              let arm ← t.armAt ed.1
              let seqc ← arm.sequence_compactest
              let subs ← get_grafts f t ed.1
              .ok (acc ++ occs.map fun p => GD.mk seqc [p] subs)) = .ok r →
        ∃ tl, r = acc ++ tl ∧
          tl.length = ed.2.multiplicity * ed.2.graft_at.length ∧
          ∀ gd ∈ tl, ∃ p, gd.pts = [p] := by
      intro acc ed r hr
      by_cases hg : ed.2.graft_from ≠ 0
      · simp [hg] at hr
      · simp only [hg, if_false, ite_false, if_neg] at hr
        by_cases he : (occsOf ed.2).isEmpty
        · rw [if_pos he] at hr
          cases hr
          refine ⟨[], by simp, ?_, by simp⟩
          have : (occsOf ed.2).length = 0 := by
            simpa [List.isEmpty_iff_length_eq_zero] using he
          rw [← occsOf_length]
          simp [this]
        · rw [if_neg he] at hr
          obtain ⟨arm, _, hr⟩ := exbind_ok.mp hr
          obtain ⟨seqc, _, hr⟩ := exbind_ok.mp hr
          obtain ⟨subs, _, hr⟩ := exbind_ok.mp hr
          cases hr
          refine ⟨(occsOf ed.2).map fun p => GD.mk seqc [p] subs, rfl, ?_, ?_⟩
          · simp [occsOf_length]
          · intro gd hgd
            obtain ⟨p, _, rfl⟩ := List.mem_map.mp hgd
            exact ⟨p, rfl⟩
    obtain ⟨tl, rfl, hlen, hmem⟩ := foldGD_ok _ _ hstep _ _ _ h
    exact ⟨by simpa using hlen, by simpa using hmem⟩

/-- The 8 enumeration entries of the scenario graph: one per
(repetition, position) pair of the multiplicity-2 edge at [1,2,4,8], each
carrying the graft arm's compact sequence (B,3)(C,2), one position, and
no sub-grafts. -/
def c3ScenDefs : List GD :=
  [1, 2, 4, 8, 1, 2, 4, 8].map fun p : Int =>
    GD.mk [CItem.pair "B" 3, CItem.pair "C" 2] [p] []

/-- C3 witness: on the scenario graph, get_grafts yields exactly the 8
entries (4 positions × 2 repetitions), matching the outgoing-edge sum,
each with a single-element position list. -/
theorem c3_witness :
    get_grafts 5 scenT1 0 = .ok c3ScenDefs ∧
    c3ScenDefs.length =
      ((scenT1.outEdges 0).map fun ed => ed.2.multiplicity * ed.2.graft_at.length).sum ∧
    c3ScenDefs.length = 8 ∧
    ∀ gd ∈ c3ScenDefs, ∃ p, gd.pts = [p] := by
  have h := c3_get_grafts_count 5 scenT1 0 c3ScenDefs rfl
  exact ⟨rfl, h.1, rfl, h.2⟩

/-- Base graph for the C6 counterexample: root arm A×3 as Chain1 and a
one-bead graft arm D. -/
def c6Base : Topo :=
  ((emptyTopo.add_chaintype [CItem.pair "A" 3] none).1.add_armtype_fresh [CItem.bare "D"]).1

/-- C6 left topology: one graft edge with attach_positions [1,2] and
multiplicity 2. -/
def c6T1 : Topo := getOk (c6Base.add_graft 0 1 [1, 2] 0 2)

/-- C6 right topology: the same edge with multiplicity 1 and every entry
of [1,2] repeated 2 times, i.e. [1,1,2,2]. -/
def c6T2 : Topo := getOk (c6Base.add_graft 0 1 [1, 1, 2, 2] 0 1)

/-- C6 counterexample: multiplicity 2 with positions [1,2] is enumerated
multiplicity-major as 1,2,1,2, whereas repeating every entry gives
1,1,2,2 — so get_grafts returns different (not equal) lists of entries
and expand_to_beads returns different (node list, edge list) pairs for
the two topologies; the claimed indistinguishability fails. -/
theorem c6_counterexample :
    (get_grafts 3 c6T1 0).map (fun l => l.map GD.pts) ≠
      (get_grafts 3 c6T2 0).map (fun l => l.map GD.pts) ∧
    expand_to_beads 3 c6T1 ≠ expand_to_beads 3 c6T2 := by
  constructor <;> decide

/-- View of the edge list retaining, per edge, the endpoints, the fully
enumerated occurrence list, and the graft end: every topology operation
downstream of add_graft depends on attach_positions and multiplicity only
through this view. -/
def edgeOccView (t : Topo) : List (Nat × Nat × List Int × Int) :=
  t.edges.map fun e => (e.1, e.2.1, occsOf e.2.2, e.2.2.graft_from)

/-- View of an outgoing-edge entry: target, occurrence list, graft end. -/
def occTriple (ed : Nat × GraftAttr) : Nat × List Int × Int :=
  (ed.1, occsOf ed.2, ed.2.graft_from)

/-- Arm lookup depends only on the arm list. -/
theorem armAt_congr {t1 t2 : Topo} (h : t1.arm_types = t2.arm_types) (i : Nat) :
    t1.armAt i = t2.armAt i := by
  simp [Topo.armAt, h]

/-- Edge extraction agrees, up to the occurrence view, on topologies with
the same edge view. -/
theorem outEdges_occView {t1 t2 : Topo} (h : edgeOccView t1 = edgeOccView t2) (r : Nat) :
    (t1.outEdges r).map occTriple = (t2.outEdges r).map occTriple := by
  unfold edgeOccView at h
  unfold Topo.outEdges
  revert h
  generalize t1.edges = l1
  generalize t2.edges = l2
  induction l1 generalizing l2 with
  | nil =>
    intro h
    cases l2 with
    | nil => rfl
    | cons e2 l2 => simp at h
  | cons e1 l1 ih =>
    intro h
    cases l2 with
    | nil => simp at h
    | cons e2 l2 =>
      simp only [List.map_cons, List.cons.injEq, Prod.mk.injEq] at h
      obtain ⟨⟨h1, h2, h3, h4⟩, htl⟩ := h
      by_cases hr : e1.1 = r
      · rw [List.filterMap_cons, List.filterMap_cons, if_pos hr, if_pos (h1 ▸ hr)]
        simp only [List.map_cons, ih l2 htl]
        congr 1
        simp [occTriple, h2, h3, h4]
      · rw [List.filterMap_cons, List.filterMap_cons, if_neg hr, if_neg (h1 ▸ hr)]
        exact ih l2 htl

/-- Congruence for monadic folds over lists that agree under a view, with
step functions that agree on view-equal elements. -/
theorem foldlM_rel {α β γ : Type} (view : α → β)
    (s1 s2 : γ → α → Except String γ)
    (hstep : ∀ acc a1 a2, view a1 = view a2 → s1 acc a1 = s2 acc a2) :
    ∀ (l1 l2 : List α), l1.map view = l2.map view →
      ∀ acc, List.foldlM s1 acc l1 = List.foldlM s2 acc l2 := by
  intro l1
  induction l1 with
  | nil =>
    intro l2 h acc
    cases l2 with
    | nil => rfl
    | cons a2 l2 => simp at h
  | cons a1 l1 ih =>
    intro l2 h acc
    cases l2 with
    | nil => simp at h
    | cons a2 l2 =>
      simp only [List.map_cons, List.cons.injEq] at h
      rw [exfoldlM_cons, exfoldlM_cons, hstep acc a1 a2 h.1]
      cases s2 acc a2 with
      | error e => rfl
      | ok mid => rw [exOk_bind, exOk_bind]; exact ih l2 h.2 mid

/-- Congruence for monadic folds over one list with pointwise-equal step
functions. -/
theorem foldlM_ext {α γ : Type} (s1 s2 : γ → α → Except String γ)
    (hstep : ∀ acc a, s1 acc a = s2 acc a) (l : List α) (acc : γ) :
    List.foldlM s1 acc l = List.foldlM s2 acc l :=
  foldlM_rel id s1 s2
    (fun acc a1 a2 h => by
      have ha : a1 = a2 := h
      subst ha
      exact hstep acc a1)
    l l rfl acc

/-- get_grafts depends on the edge attributes only through the occurrence
view: topologies with the same arms and the same edge view enumerate
identically. -/
theorem get_grafts_congr {t1 t2 : Topo} (harm : t1.arm_types = t2.arm_types)
    (hocc : edgeOccView t1 = edgeOccView t2) :
    ∀ (f r : Nat), get_grafts f t1 r = get_grafts f t2 r := by
  intro f
  induction f with
  | zero => intro r; rfl
  | succ f ih =>
    intro r
    rw [get_grafts, get_grafts]
    refine foldlM_rel occTriple _ _ ?_ _ _ (outEdges_occView hocc r) []
    intro acc ed1 ed2 hv
    simp only [occTriple, Prod.mk.injEq] at hv
    obtain ⟨h1, h2, h3⟩ := hv
    have harmf : t1.armAt = t2.armAt := funext (armAt_congr harm)
    have ihf : get_grafts f t1 = get_grafts f t2 := funext ih
    rw [← h1, ← h2, ← h3, harmf, ihf]

/-- expand_graft_to_beads likewise depends only on the arms and the edge
occurrence view. -/
theorem expandRec_congr {t1 t2 : Topo} (harm : t1.arm_types = t2.arm_types)
    (hocc : edgeOccView t1 = edgeOccView t2) :
    ∀ (f a : Nat) (pr : Option Nat) (st : List Species × List (Nat × Nat)),
      expandRec f t1 a pr st = expandRec f t2 a pr st := by
  intro f
  induction f with
  | zero => intro a pr st; rfl
  | succ f ih =>
    intro a pr st
    rw [expandRec, expandRec, armAt_congr harm]
    cases t2.armAt a with
    | error e => rfl
    | ok arm =>
      rw [exOk_bind, exOk_bind]
      cases pr
      all_goals
        refine exbind_congr fun connector => ?_
        refine foldlM_rel occTriple _ _ ?_ _ _ (outEdges_occView hocc a) _
        intro acc ed1 ed2 hv
        simp only [occTriple, Prod.mk.injEq] at hv
        obtain ⟨h1, h2, h3⟩ := hv
        have ihf : expandRec f t1 = expandRec f t2 :=
          funext fun a2 => funext fun pr2 => funext fun st2 => ih a2 pr2 st2
        rw [← h1, ← h2, ← h3, ihf]

/-- expand_to_beads congruence: same arms, same chain types, same edge
occurrence view give identical bead expansions. -/
theorem expand_to_beads_congr {t1 t2 : Topo} (harm : t1.arm_types = t2.arm_types)
    (hch : t1.chain_types = t2.chain_types)
    (hocc : edgeOccView t1 = edgeOccView t2) (f : Nat) :
    expand_to_beads f t1 = expand_to_beads f t2 := by
  unfold expand_to_beads
  rw [← hch]
  refine foldlM_ext _ _ ?_ _ _
  intro chains ch
  rw [expandRec_congr harm hocc]

/-- C6 (amended): a graft edge with attach position list P and
multiplicity m is indistinguishable from the edge with multiplicity 1
whose attach position list is P concatenated m times as a whole (the
multiplicity-major order the code enumerates), rather than each entry of
P repeated m times adjacently: the two resulting topologies give equal
get_grafts results from every root, and equal expand_graft_to_beads /
expand_to_beads results. -/
theorem c6_amended (t : Topo) (u v : Nat) (P : List Int) (m : Nat) (t1 t2 : Topo)
    (h1 : t.add_graft u v P 0 m = .ok t1)
    (h2 : t.add_graft u v (((List.range m).map fun _ => P).flatten) 0 1 = .ok t2) :
    (∀ f r, get_grafts f t1 r = get_grafts f t2 r) ∧
    (∀ (f a : Nat) (pr : Option Nat) (st : List Species × List (Nat × Nat)),
      expandRec f t1 a pr st = expandRec f t2 a pr st) ∧
    (∀ f, expand_to_beads f t1 = expand_to_beads f t2) := by
  have e1 : { t with edges := t.edges ++ [(u, v, ⟨P, 0, m⟩)] } = t1 := by
    simpa [Topo.add_graft] using h1
  have e2 : { t with
      edges := t.edges ++ [(u, v, ⟨((List.range m).map fun _ => P).flatten, 0, 1⟩)] } = t2 := by
    simpa [Topo.add_graft] using h2
  subst e1 e2
  have harm : Topo.arm_types { t with edges := t.edges ++ [(u, v, ⟨P, 0, m⟩)] } =
      Topo.arm_types { t with
        edges := t.edges ++ [(u, v, ⟨((List.range m).map fun _ => P).flatten, 0, 1⟩)] } := rfl
  have hch : Topo.chain_types { t with edges := t.edges ++ [(u, v, ⟨P, 0, m⟩)] } =
      Topo.chain_types { t with
        edges := t.edges ++ [(u, v, ⟨((List.range m).map fun _ => P).flatten, 0, 1⟩)] } := rfl
  have hocc : edgeOccView { t with edges := t.edges ++ [(u, v, ⟨P, 0, m⟩)] } =
      edgeOccView { t with
        edges := t.edges ++ [(u, v, ⟨((List.range m).map fun _ => P).flatten, 0, 1⟩)] } := by
    simp [edgeOccView, occsOf]
  exact ⟨get_grafts_congr harm hocc, expandRec_congr harm hocc,
    fun f => expand_to_beads_congr harm hch hocc f⟩

/-- C6 witness: on the counterexample base graph, multiplicity 2 with
positions [1,2] agrees with multiplicity 1 and the block-repeated list
[1,2,1,2] in both enumeration and bead expansion. -/
theorem c6_witness :
    get_grafts 3 c6T1 0 = get_grafts 3 (getOk (c6Base.add_graft 0 1 [1, 2, 1, 2] 0 1)) 0 ∧
    expand_to_beads 3 c6T1 = expand_to_beads 3 (getOk (c6Base.add_graft 0 1 [1, 2, 1, 2] 0 1)) := by
  have h := c6_amended c6Base 0 1 [1, 2] 2 c6T1
    (getOk (c6Base.add_graft 0 1 [1, 2, 1, 2] 0 1)) rfl (by rfl)
  exact ⟨h.1 3 0, h.2.2 3⟩

/-- add_armtype only appends to the arm arena (the segment cache may or
may not grow, the other components are untouched), and returns the index
of the appended arm. -/
theorem add_armtype_fresh_parts (t : Topo) (d : List CItem) :
    (t.add_armtype_fresh d).1.arm_types = t.arm_types ++ [segFromDef d] ∧
    (t.add_armtype_fresh d).1.chain_types = t.chain_types ∧
    (t.add_armtype_fresh d).1.edges = t.edges ∧
    (t.add_armtype_fresh d).2 = t.arm_types.length := by
  unfold Topo.add_armtype_fresh Topo.add_segment
  refine ⟨?_, ?_, ?_, ?_⟩ <;> (simp only; split <;> rfl)

/-- add_chaintype appends the arm and records the chain name at its
index. -/
theorem add_chaintype_parts (t : Topo) (d : List CItem) (name : Option String) :
    (t.add_chaintype d name).1.arm_types = t.arm_types ++ [segFromDef d] ∧
    (t.add_chaintype d name).1.chain_types =
      dictSet t.chain_types
        (name.getD ("Chain" ++ toString (t.chain_types.length + 1)))
        t.arm_types.length ∧
    (t.add_chaintype d name).1.edges = t.edges ∧
    (t.add_chaintype d name).2 = t.arm_types.length := by
  obtain ⟨h1, h2, h3, h4⟩ := add_armtype_fresh_parts t d
  unfold Topo.add_chaintype
  refine ⟨?_, ?_, ?_, ?_⟩ <;> simp [h1, h2, h3, h4]

/-- Python indexing into the contiguous range bead_inds = range'(s, n):
out-of-range indices (p ≥ n or p < -n) raise IndexError, a negative
in-range index wraps around to s + (n + p), and a non-negative in-range
index gives s + p. -/
theorem pyIdx_range' (s n : Nat) (p : Int) :
    (p < -(n : Int) ∨ (n : Int) ≤ p →
      pyIdx (List.range' s n) p = .error "IndexError: list index out of range") ∧
    (-(n : Int) ≤ p → p < 0 →
      pyIdx (List.range' s n) p = .ok (s + ((n : Int) + p).toNat)) ∧
    (0 ≤ p → p < (n : Int) → pyIdx (List.range' s n) p = .ok (s + p.toNat)) := by
  refine ⟨?_, ?_, ?_⟩
  · intro h
    unfold pyIdx
    by_cases hp : p < 0
    · simp only [List.length_range', if_pos hp]
      rw [dif_neg (by omega)]
    · simp only [List.length_range', if_neg hp]
      rw [dif_neg (by omega)]
  · intro h1 h2
    unfold pyIdx
    simp only [List.length_range', if_pos h2]
    rw [dif_pos (by omega)]
    simp only [List.get_eq_getElem, List.getElem_range', Except.ok.injEq]
    omega
  · intro h1 h2
    unfold pyIdx
    simp only [List.length_range', if_neg (by omega : ¬p < 0)]
    rw [dif_pos (by omega)]
    simp only [List.get_eq_getElem, List.getElem_range', Except.ok.injEq]
    omega

/-- C10 (amended): for an arm of n beads carrying one outgoing graft edge
with attach position p (built here from arbitrary base and child
definitions), bead expansion raises IndexError when p ≥ n or p < -n; for
an in-range position it also raises IndexError when the grafted arm has
zero beads (the connector bond indexes the child's first bead); when the
grafted arm has at least one bead, every negative in-range position
-n ≤ p < 0 raises nothing and silently attaches the child arm's first
bead to bead n + p of the base arm (Python negative-index wrap-around),
while 0 ≤ p < n attaches it to bead p. -/
theorem c10_amended (baseDef childDef : List CItem) (p : Int)
    (tG : Topo) (bs cs : List Species) (n : Nat) (fuel : Nat)
    (hb : (segFromDef baseDef).sequence = bs)
    (hc : (segFromDef childDef).sequence = cs)
    (hn : bs.length = n)
    (h : ((emptyTopo.add_chaintype baseDef none).1.add_armtype_fresh childDef).1.add_graft
          0 1 [p] 0 1 = .ok tG) :
    (p < -(n : Int) ∨ (n : Int) ≤ p →
      expand_to_beads (fuel + 2) tG = .error "IndexError: list index out of range") ∧
    (-(n : Int) ≤ p → p < (n : Int) → cs = [] →
      expand_to_beads (fuel + 2) tG = .error "IndexError: list index out of range") ∧
    (-(n : Int) ≤ p → p < 0 → 0 < cs.length →
      expand_to_beads (fuel + 2) tG = .ok [("Chain1",
        (bs ++ cs,
          (((List.range' 0 n).drop 1).map fun ii => (ii - 1, ii)) ++
            ((((n : Int) + p).toNat, n) ::
              ((List.range' n cs.length).drop 1).map fun ii => (ii - 1, ii))))]) ∧
    (0 ≤ p → p < (n : Int) → 0 < cs.length →
      expand_to_beads (fuel + 2) tG = .ok [("Chain1",
        (bs ++ cs,
          (((List.range' 0 n).drop 1).map fun ii => (ii - 1, ii)) ++
            ((p.toNat, n) ::
              ((List.range' n cs.length).drop 1).map fun ii => (ii - 1, ii))))]) := by
  have e : { ((emptyTopo.add_chaintype baseDef none).1.add_armtype_fresh childDef).1 with
      edges := ((emptyTopo.add_chaintype baseDef none).1.add_armtype_fresh childDef).1.edges ++
        [(0, 1, ⟨[p], 0, 1⟩)] } = tG := by
    simpa [Topo.add_graft] using h
  obtain ⟨a1, a2, a3, _⟩ := add_chaintype_parts emptyTopo baseDef none
  obtain ⟨b1, b2, b3, _⟩ := add_armtype_fresh_parts (emptyTopo.add_chaintype baseDef none).1 childDef
  have harms : tG.arm_types = [segFromDef baseDef, segFromDef childDef] := by
    rw [← e]
    show ((emptyTopo.add_chaintype baseDef none).1.add_armtype_fresh childDef).1.arm_types = _
    rw [b1, a1]
    rfl
  have hch : tG.chain_types = [("Chain1", 0)] := by
    rw [← e]
    show ((emptyTopo.add_chaintype baseDef none).1.add_armtype_fresh childDef).1.chain_types = _
    rw [b2, a2]
    rfl
  have hedges : tG.edges = [(0, 1, ⟨[p], 0, 1⟩)] := by
    rw [← e]
    show ((emptyTopo.add_chaintype baseDef none).1.add_armtype_fresh childDef).1.edges ++
      [(0, 1, ⟨[p], 0, 1⟩)] = _
    rw [b3, a3]
    rfl
  have harm0 : tG.armAt 0 = .ok (segFromDef baseDef) := by simp [Topo.armAt, harms]
  have harm1 : tG.armAt 1 = .ok (segFromDef childDef) := by simp [Topo.armAt, harms]
  have hout0 : tG.outEdges 0 = [(1, ⟨[p], 0, 1⟩)] := by
    simp [Topo.outEdges, hedges]
  have hout1 : tG.outEdges 1 = [] := by
    simp [Topo.outEdges, hedges]
  have hocc : occsOf ⟨[p], 0, 1⟩ = [p] := by simp [occsOf]
  have hpy := pyIdx_range' 0 n p
  refine ⟨?_, ?_, ?_, ?_⟩
  · intro hcase
    simp only [expand_to_beads, hch, exfoldlM_cons, exfoldlM_nil, expandRec,
      harm0, harm1, hout0, hout1, hocc, exOk_bind, exErr_bind, hb, hc, hn,
      List.nil_append, List.append_nil, ne_eq]
    simp only [List.length_nil, not_true_eq_false, if_false]
    rw [hpy.1 hcase]
    rfl
  · intro h1 h2 hcs
    have hpyc : pyIdx (List.range' n cs.length) 0 =
        .error "IndexError: list index out of range" := by
      rw [hcs]
      exact (pyIdx_range' n 0 0).1 (Or.inr (by simp))
    have hpar : pyIdx (List.range' 0 n) p = .ok (if p < 0 then ((n : Int) + p).toNat
        else p.toNat) := by
      by_cases hsign : p < 0
      · rw [if_pos hsign]
        simpa using hpy.2.1 h1 hsign
      · rw [if_neg hsign]
        simpa using hpy.2.2 (by omega) h2
    simp only [expand_to_beads, hch, exfoldlM_cons, exfoldlM_nil, expandRec,
      harm0, harm1, hout0, hout1, hocc, exOk_bind, exErr_bind, hb, hc, hn,
      List.nil_append, List.append_nil, ne_eq, hpyc, Except.map]
    simp only [List.length_nil, not_true_eq_false, if_false]
    rw [hpar]
    rfl
  · intro h1 h2 hcs
    have hpyc : pyIdx (List.range' n cs.length) 0 = .ok n := by
      have := (pyIdx_range' n cs.length 0).2.2 (le_refl 0) (by exact_mod_cast hcs)
      simpa using this
    simp only [expand_to_beads, hch, exfoldlM_cons, exfoldlM_nil, expandRec,
      harm0, harm1, hout0, hout1, hocc, exOk_bind, exErr_bind, hb, hc, hn,
      List.nil_append, List.append_nil, ne_eq, hpyc, Except.map]
    simp only [List.length_nil, not_true_eq_false, if_false]
    rw [hpy.2.1 h1 h2]
    simp [exOk_bind, List.append_assoc]
  · intro h1 h2 hcs
    have hpyc : pyIdx (List.range' n cs.length) 0 = .ok n := by
      have := (pyIdx_range' n cs.length 0).2.2 (le_refl 0) (by exact_mod_cast hcs)
      simpa using this
    simp only [expand_to_beads, hch, exfoldlM_cons, exfoldlM_nil, expandRec,
      harm0, harm1, hout0, hout1, hocc, exOk_bind, exErr_bind, hb, hc, hn,
      List.nil_append, List.append_nil, ne_eq, hpyc, Except.map]
    simp only [List.length_nil, not_true_eq_false, if_false]
    rw [hpy.2.2 h1 h2]
    simp [exOk_bind, List.append_assoc]

/-- Concrete C10 counterexample topology: base arm A×3 with a zero-bead
child arm (B,0) grafted at the in-range position 1. -/
def tC10z : Topo :=
  getOk (((emptyTopo.add_chaintype [CItem.pair "A" 3] none).1.add_armtype_fresh
    [CItem.pair "B" 0]).1.add_graft 0 1 [1] 0 1)

/-- C10 counterexample: the claim says expansion raises for position p
iff p ≥ n or p < -n, but with a zero-bead grafted arm the in-range
position 1 on a 3-bead base arm also raises IndexError (the connector
bond indexes the child's first bead, which does not exist). -/
theorem c10_counterexample :
    ¬((1 : Int) < -(3 : Int) ∨ (3 : Int) ≤ (1 : Int)) ∧
    expand_to_beads 2 tC10z = .error "IndexError: list index out of range" := by
  constructor
  · decide
  · rfl

/-- Concrete C10 topology: base arm A×3 with a child arm B grafted at the
negative in-range position -1. -/
def tC10 : Topo :=
  getOk (((emptyTopo.add_chaintype [CItem.pair "A" 3] none).1.add_armtype_fresh
    [CItem.bare "B"]).1.add_graft 0 1 [-1] 0 1)

/-- C10 witness: with n = 3, a one-bead child and p = -1, expansion
succeeds and attaches the child bead to bead n + p = 2 of the base arm. -/
theorem c10_witness :
    expand_to_beads 2 tC10 =
      .ok [("Chain1", (["A", "A", "A", "B"], [(0, 1), (1, 2), (2, 3)]))] := by
  have h := (c10_amended [CItem.pair "A" 3] [CItem.bare "B"] (-1) tC10
    ["A", "A", "A"] ["B"] 3 0 rfl rfl rfl rfl).2.2.1 (by decide) (by decide) (by decide)
  simpa using h

/-- Membership in the successor list is exactly the edge relation. -/
theorem succs_iff_edgeRel (t : Topo) (u v : Nat) :
    v ∈ t.succs u ↔ edgeRel t u v := by
  simp only [Topo.succs, Topo.outEdges, edgeRel, List.mem_map, List.mem_filterMap]
  constructor
  · rintro ⟨⟨w, d⟩, ⟨⟨a, b, c⟩, hmem, hif⟩, rfl⟩
    by_cases hab : a = u
    · simp only [hab, if_pos] at hif
      cases hif
      exact ⟨d, hab ▸ hmem⟩
    · simp [hab] at hif
  · rintro ⟨d, hmem⟩
    exact ⟨(v, d), ⟨(u, v, d), hmem, by simp⟩, rfl⟩

/-- A vertex with an outgoing edge is an edge source. -/
theorem edgeRel_mem_srcList {t : Topo} {u v : Nat} (h : edgeRel t u v) :
    u ∈ t.srcList := by
  obtain ⟨d, hd⟩ := h
  exact List.mem_map.mpr ⟨(u, v, d), hd, rfl⟩

/-- Soundness of the bounded reachability search: a positive answer
yields a transitive-closure witness. -/
theorem reachN_transGen {t : Topo} :
    ∀ {f u v : Nat}, reachN t f u v = true → Relation.TransGen (edgeRel t) u v := by
  intro f
  induction f with
  | zero => intro u v h; simp [reachN] at h
  | succ f ih =>
    intro u v h
    simp only [reachN, List.any_eq_true, Bool.or_eq_true, beq_iff_eq] at h
    obtain ⟨w, hw, hcase⟩ := h
    have he : edgeRel t u w := (succs_iff_edgeRel t u w).mp hw
    rcases hcase with rfl | hr
    · exact Relation.TransGen.single he
    · exact Relation.TransGen.head he (ih hr)

/-- Completeness of the bounded search along an explicit chain: a walk of
length between 1 and the fuel is detected. -/
theorem chain_reachN {t : Topo} :
    ∀ (l : List Nat) (u v f : Nat), List.Chain (edgeRel t) u l →
      l.getLast? = some v → l.length ≤ f → reachN t f u v = true := by
  intro l
  induction l with
  | nil => intro u v f _ hlast _; simp at hlast
  | cons w ls ih =>
    intro u v f hchain hlast hlen
    cases hchain with
    | cons hw hrest =>
      cases f with
      | zero => simp at hlen
      | succ f =>
        simp only [reachN, List.any_eq_true, Bool.or_eq_true, beq_iff_eq]
        refine ⟨w, (succs_iff_edgeRel t u w).mpr hw, ?_⟩
        cases ls with
        | nil =>
          left
          simpa using hlast
        | cons y ys =>
          right
          rw [List.getLast?_cons_cons] at hlast
          have hlen2 : (y :: ys).length ≤ f := by
            simp only [List.length_cons] at hlen ⊢
            omega
          exact ih w v f hrest hlast hlen2

/-- A transitive-closure witness unfolds into an explicit nonempty chain
ending at the target. -/
theorem transGen_chain {t : Topo} {u v : Nat}
    (h : Relation.TransGen (edgeRel t) u v) :
    ∃ l, List.Chain (edgeRel t) u l ∧ l.getLast? = some v := by
  induction h using Relation.TransGen.head_induction_on with
  | base hb => exact ⟨[v], List.Chain.cons hb List.Chain.nil, rfl⟩
  | ih ha _ ih =>
    obtain ⟨l, hl, hlast⟩ := ih
    cases l with
    | nil => simp at hlast
    | cons x xs =>
      exact ⟨_ :: x :: xs, List.Chain.cons ha hl, by
        rw [List.getLast?_cons_cons]
        exact hlast⟩

/-- Every vertex of a chain except the endpoint has an outgoing edge. -/
theorem chain_sources {t : Topo} :
    ∀ (l : List Nat) (u : Nat), List.Chain (edgeRel t) u l →
      ∀ x ∈ (u :: l).dropLast, ∃ y, edgeRel t x y := by
  intro l
  induction l with
  | nil => intro u _ x hx; simp at hx
  | cons w ls ih =>
    intro u hchain x hx
    cases hchain with
    | cons hw hrest =>
      rw [List.dropLast_cons₂, List.mem_cons] at hx
      rcases hx with rfl | hx
      · exact ⟨w, hw⟩
      · exact ih w hrest x hx

/-- A list that is not duplicate-free contains the same element at two
positions. -/
theorem not_nodup_decomp {l : List Nat} (h : ¬l.Nodup) :
    ∃ (l1 : List Nat) (x : Nat) (l2 l3 : List Nat), l = l1 ++ x :: l2 ++ x :: l3 := by
  induction l with
  | nil => exact absurd List.nodup_nil h
  | cons a as ih =>
    rw [List.nodup_cons] at h
    by_cases hmem : a ∈ as
    · obtain ⟨s, r, rfl⟩ := List.append_of_mem hmem
      exact ⟨[], a, s, r, by simp⟩
    · have : ¬as.Nodup := by tauto
      obtain ⟨l1, x, l2, l3, rfl⟩ := ih this
      exact ⟨a :: l1, x, l2, l3, by simp⟩

/-- Shortening of closed walks: any closed walk yields a closed walk of
at most (number of edges) steps. -/
theorem closed_shorten {t : Topo} :
    ∀ (k : Nat) (v : Nat) (l : List Nat), List.Chain (edgeRel t) v l →
      l.getLast? = some v → l.length ≤ k →
      ∃ (w : Nat) (m : List Nat), List.Chain (edgeRel t) w m ∧
        m.getLast? = some w ∧ m.length ≤ t.edges.length := by
  intro k
  induction k with
  | zero =>
    intro v l hch hlast hlen
    cases l with
    | nil => simp at hlast
    | cons x xs => simp at hlen
  | succ k ih =>
    intro v l hch hlast hlen
    by_cases hsmall : l.length ≤ t.edges.length
    · exact ⟨v, l, hch, hlast, hsmall⟩
    · -- pigeonhole on the walk's source vertices
      have hsub : (v :: l).dropLast ⊆ t.srcList := by
        intro x hx
        obtain ⟨y, hy⟩ := chain_sources l v hch x hx
        exact edgeRel_mem_srcList hy
      have hlensrc : t.srcList.length = t.edges.length := by
        simp [Topo.srcList]
      have hlend : (v :: l).dropLast.length = l.length := by simp
      have hnotnodup : ¬(v :: l).dropLast.Nodup := by
        intro hnd
        have := (hnd.subperm hsub).length_le
        omega
      obtain ⟨d1, x, d2, d3, hdecomp⟩ := not_nodup_decomp hnotnodup
      have hl_ne : l ≠ [] := by
        intro hnil
        rw [hnil] at hlast
        simp at hlast
      have hcons_ne : (v :: l) ≠ [] := List.cons_ne_nil v l
      have hlastfull : (v :: l).getLast hcons_ne = v := by
        cases l with
        | nil => simp at hlast
        | cons a as =>
          have h1 : (v :: a :: as).getLast hcons_ne = (a :: as).getLast (List.cons_ne_nil a as) := by
            exact List.getLast_cons (List.cons_ne_nil a as)
          rw [h1]
          exact Option.some_injective _
            ((List.getLast?_eq_getLast (a :: as) (List.cons_ne_nil a as)).symm.trans hlast)
      have hfull : v :: l = d1 ++ x :: d2 ++ x :: (d3 ++ [v]) := by
        conv_lhs => rw [← List.dropLast_append_getLast hcons_ne]
        rw [hdecomp, hlastfull]
        simp
      -- extract the closed sub-walk between the two occurrences of x
      have hlen_eq := congrArg List.length hfull
      simp only [List.length_cons, List.length_append] at hlen_eq
      cases d1 with
      | nil =>
        have hvx : v = x := by
          have := congrArg (fun s => s.head?) hfull
          simpa using this
        have hl_eq : l = d2 ++ x :: (d3 ++ [v]) := by
          have := hfull
          rw [List.nil_append] at this
          exact (List.cons.injEq .. ▸ this).2
        rw [hl_eq] at hch
        rw [List.chain_split] at hch
        have hchx : List.Chain (edgeRel t) v (d2 ++ [x]) := hch.1
        have hgl : (d2 ++ [x]).length = d2.length + 1 := by simp
        refine ih x (d2 ++ [x]) (hvx ▸ hchx) (by simp) (by omega)
      | cons a d1t =>
        have hva : v = a ∧ l = d1t ++ x :: d2 ++ x :: (d3 ++ [v]) := by
          have h1 := hfull
          rw [List.cons_append] at h1
          have h2 := List.cons.injEq .. ▸ h1
          exact ⟨h2.1, by rw [h2.2]; simp⟩
        rw [hva.2] at hch
        rw [show d1t ++ x :: d2 ++ x :: (d3 ++ [v]) = d1t ++ x :: (d2 ++ x :: (d3 ++ [v])) by simp] at hch
        rw [List.chain_split] at hch
        have hchx : List.Chain (edgeRel t) x (d2 ++ x :: (d3 ++ [v])) := hch.2
        rw [List.chain_split] at hchx
        have hgl : (d2 ++ [x]).length = d2.length + 1 := by simp
        refine ih x (d2 ++ [x]) hchx.1 (by simp) (by omega)

/-- C1: isvalid returns true exactly when the graft multigraph contains
no directed cycle (no vertex reaches itself through a nonempty directed
walk); in particular the concrete scenario graph (root arm of 10 A beads
with one graft edge to the B×3,C×2 arm) is valid, and adding a further
edge from the grafted arm back to the root arm with attach_end = -1
makes isvalid false. -/
theorem c1_isvalid_iff_acyclic :
    (∀ t : Topo, t.isvalid = true ↔ ¬∃ v, Relation.TransGen (edgeRel t) v v) ∧
    scenT1.isvalid = true ∧ scenT2.isvalid = false := by
  refine ⟨?_, by decide, by decide⟩
  intro t
  constructor
  · intro hvalid hex
    obtain ⟨v, hcyc⟩ := hex
    obtain ⟨l, hch, hlast⟩ := transGen_chain hcyc
    obtain ⟨w, m, hchm, hlastm, hlenm⟩ := closed_shorten l.length v l hch hlast le_rfl
    have hreach : reachN t t.edges.length w w = true :=
      chain_reachN m w w _ hchm hlastm hlenm
    have hwmem : w ∈ t.srcList := by
      cases m with
      | nil => simp at hlastm
      | cons y ys =>
        cases hchm with
        | cons hwy _ => exact edgeRel_mem_srcList hwy
    unfold Topo.isvalid at hvalid
    simp only [Bool.not_eq_true', List.any_eq_false] at hvalid
    exact absurd hreach (by simpa using hvalid w hwmem)
  · intro hno
    unfold Topo.isvalid
    simp only [Bool.not_eq_true', List.any_eq_false]
    intro v hv
    by_contra hr
    exact hno ⟨v, reachN_transGen hr⟩

/-- Arms created by add_path for a branch-definition list, in creation
(depth-first, preorder) order. -/
def gdArms : List GD → List Segment
  | [] => []
  | .mk seq _ subs :: rest => segFromDef seq :: (gdArms subs ++ gdArms rest)

/-- Edges created by add_path for a branch-definition list when the next
free arm index is L and the base arm is u. -/
def gdEdges : Nat → Nat → List GD → List (Nat × Nat × GraftAttr)
  | _, _, [] => []
  | L, u, .mk _ pts subs :: rest =>
      (u, L, ⟨pts, 0, 1⟩) ::
        (gdEdges (L + 1) L subs ++ gdEdges (L + 1 + (gdArms subs).length) u rest)

/-- Outgoing-edge entries of the base arm of a built branch list, with
the tree rooted at index L. -/
def edgeEntries : Nat → List GD → List (Nat × GraftAttr)
  | _, [] => []
  | L, .mk _ pts subs :: rest =>
      (L, ⟨pts, 0, 1⟩) :: edgeEntries (L + 1 + (gdArms subs).length) rest

/-- Nesting depth of a branch-definition list (0 for an empty list; a
top-level entry contributes its sub-list depth plus one). -/
def gdDepthL : List GD → Nat
  | [] => 0
  | .mk _ _ subs :: rest => max (gdDepthL subs + 1) (gdDepthL rest)

/-- An item of a compact-est sequence is in canonical form when pairs
carry a count of at least 2 (a count-1 block is rendered bare). -/
def CItem.canonical : CItem → Prop
  | .bare _ => True
  | .pair _ n => 2 ≤ n

/-- A compact-est sequence in canonical RLE form: nonempty, canonical
items, adjacent species distinct. -/
def normalSeq (d : List CItem) : Prop :=
  d ≠ [] ∧ (∀ it ∈ d, it.canonical) ∧
    d.Chain' fun a b => a.species ≠ b.species

/-- A branch definition in the normal form produced by get_grafts:
canonical sequence, a single graft point, normal sub-definitions. -/
inductive GDNormal : GD → Prop where
  | mk (seq : List CItem) (p : Int) (subs : List GD) :
      normalSeq seq → (∀ sub ∈ subs, GDNormal sub) →
      GDNormal (GD.mk seq [p] subs)

/-- Unfolding of the verbose sequence of a built segment on a cons. -/
theorem segFromDef_sequence_cons (it : CItem) (rest : List CItem) :
    (segFromDef (it :: rest)).sequence =
      List.replicate it.count it.species ++ (segFromDef rest).sequence := by
  simp [segFromDef, Segment.sequence]

/-- A canonical item has a positive count. -/
theorem CItem.canonical_count_pos {it : CItem} (h : it.canonical) : 1 ≤ it.count := by
  cases it with
  | bare s => simp [CItem.count]
  | pair s n =>
    simp only [CItem.canonical] at h
    simp [CItem.count]
    omega

/-- The RLE loop absorbs a replicate block of the current species. -/
theorem rleCore_consume :
    ∀ (c : Nat) (k : Nat) (s : Species) (tl : List Species),
      rleCore s k (List.replicate c s ++ tl) = rleCore s (k + c) tl := by
  intro c
  induction c with
  | zero => intro k s tl; simp
  | succ c ih =>
    intro k s tl
    rw [List.replicate_succ, List.cons_append]
    show rleCore s k (s :: (List.replicate c s ++ tl)) = _
    rw [rleCore, if_pos rfl, ih]
    congr 1
    omega

/-- The RLE loop replays a canonical pair list verbatim: encoding the
expansion of a canonical sequence gives back its (species, count) pairs. -/
theorem rle_encode :
    ∀ (d : List CItem), (∀ it ∈ d, 1 ≤ it.count) →
      (d.Chain' fun a b => a.species ≠ b.species) →
      ∀ (x : Species) (n : Nat),
        (∀ it0 ∈ d.head?, it0.species ≠ x) →
        rleCore x n (segFromDef d).sequence =
          (x, n) :: d.map fun it => (it.species, it.count) := by
  intro d
  induction d with
  | nil =>
    intro _ _ x n _
    simp [segFromDef, Segment.sequence, rleCore]
  | cons it rest ih =>
    intro hcnt hch x n hhd
    have hc1 : 1 ≤ it.count := hcnt it (by simp)
    obtain ⟨c, hc⟩ : ∃ c, it.count = c + 1 := ⟨it.count - 1, by omega⟩
    have hsx : it.species ≠ x := by
      have := hhd it (by simp)
      exact this
    rw [List.chain'_cons'] at hch
    rw [segFromDef_sequence_cons, hc, List.replicate_succ, List.cons_append]
    rw [rleCore, if_neg hsx, rleCore_consume]
    have hih := ih (fun it2 h2 => hcnt it2 (by simp [h2])) hch.2 it.species (1 + c)
      (fun it0 h0 => (hch.1 it0 h0).symm)
    have h1c : 1 + c = c + 1 := by omega
    rw [hih, h1c]
    simp [hc]

/-- Rendering the (species, count) pairs of a canonical sequence gives
the sequence back. -/
theorem compactestOf_pairs :
    ∀ (d : List CItem), (∀ it ∈ d, it.canonical) →
      compactestOf (d.map fun it => (it.species, it.count)) = d := by
  intro d
  induction d with
  | nil => intro _; rfl
  | cons it rest ih =>
    intro hcan
    have hit := hcan it (by simp)
    have hrest := ih fun it2 h2 => hcan it2 (by simp [h2])
    cases it with
    | bare s => simp [compactestOf, CItem.species, CItem.count] at hrest ⊢; exact hrest
    | pair s m =>
      simp only [CItem.canonical] at hit
      have hm : ¬m = 1 := by omega
      simp [compactestOf, CItem.species, CItem.count, hm] at hrest ⊢
      exact hrest

/-- Encoding after decoding is the identity on canonical compact-est
sequences: the compact-est sequence of the segment built from a normal
definition is that definition. -/
theorem compactest_roundtrip {d : List CItem} (h : normalSeq d) :
    (segFromDef d).sequence_compactest = .ok d := by
  obtain ⟨hne, hcan, hch⟩ := h
  cases d with
  | nil => exact absurd rfl hne
  | cons it rest =>
    have hc1 : 1 ≤ it.count := CItem.canonical_count_pos (hcan it (by simp))
    obtain ⟨c, hc⟩ : ∃ c, it.count = c + 1 := ⟨it.count - 1, by omega⟩
    rw [List.chain'_cons'] at hch
    have hseq : (segFromDef (it :: rest)).sequence =
        it.species :: (List.replicate c it.species ++ (segFromDef rest).sequence) := by
      rw [segFromDef_sequence_cons, hc, List.replicate_succ, List.cons_append]
    have henc := rle_encode rest
      (fun it2 h2 => CItem.canonical_count_pos (hcan it2 (by simp [h2]))) hch.2
      it.species (1 + c) (fun it0 h0 => (hch.1 it0 h0).symm)
    have hcomp : (segFromDef (it :: rest)).sequence_compact =
        .ok ((it :: rest).map fun it2 => (it2.species, it2.count)) := by
      unfold Segment.sequence_compact
      rw [hseq]
      simp only [rleCore_consume, henc, List.map_cons]
      have h1c : 1 + c = it.count := by omega
      rw [h1c]
    unfold Segment.sequence_compactest
    rw [hcomp]
    simp only [Except.map]
    rw [compactestOf_pairs (it :: rest) hcan]

/-- Decoding after encoding: the segment rebuilt from the compact-est
rendering of the RLE loop expands to the original sequence. -/
theorem rle_decode :
    ∀ (xs : List Species) (x : Species) (n : Nat), 1 ≤ n →
      (segFromDef (compactestOf (rleCore x n xs))).sequence =
        List.replicate n x ++ xs := by
  intro xs
  induction xs with
  | nil =>
    intro x n hn
    by_cases h1 : n = 1
    · subst h1
      simp [rleCore, compactestOf, segFromDef, Segment.sequence,
        CItem.species, CItem.count]
    · simp [rleCore, compactestOf, h1, segFromDef, Segment.sequence,
        CItem.species, CItem.count]
  | cons y ys ih =>
    intro x n hn
    rw [rleCore]
    by_cases hxy : y = x
    · rw [if_pos hxy, hxy, ih x (n + 1) (by omega)]
      rw [List.replicate_succ', List.append_assoc]
      rfl
    · rw [if_neg hxy]
      by_cases h1 : n = 1
      · subst h1
        rw [show compactestOf ((x, 1) :: rleCore y 1 ys) =
          CItem.bare x :: compactestOf (rleCore y 1 ys) by simp [compactestOf]]
        rw [segFromDef_sequence_cons, ih y 1 (by omega)]
        simp [CItem.species, CItem.count]
      · rw [show compactestOf ((x, n) :: rleCore y 1 ys) =
          CItem.pair x n :: compactestOf (rleCore y 1 ys) by simp [compactestOf, h1]]
        rw [segFromDef_sequence_cons, ih y 1 (by omega)]
        simp [CItem.species, CItem.count]

/-- Properties of the RLE loop output: positive counts, adjacent blocks
of distinct species, and a head block carrying the current species. -/
theorem rleCore_spec :
    ∀ (xs : List Species) (x : Species) (n : Nat), 1 ≤ n →
      (∀ b ∈ rleCore x n xs, 1 ≤ b.2) ∧
      ((rleCore x n xs).Chain' fun a b => a.1 ≠ b.1) ∧
      ∃ m tl, rleCore x n xs = (x, m) :: tl := by
  intro xs
  induction xs with
  | nil =>
    intro x n hn
    refine ⟨?_, ?_, n, [], rfl⟩
    · intro b hb
      simp [rleCore] at hb
      simp [hb, hn]
    · simp [rleCore]
  | cons y ys ih =>
    intro x n hn
    rw [rleCore]
    by_cases hxy : y = x
    · rw [if_pos hxy]
      exact ih x (n + 1) (by omega)
    · rw [if_neg hxy]
      obtain ⟨hcnt, hch, m, tl, heq⟩ := ih y 1 (by omega)
      refine ⟨?_, ?_, n, rleCore y 1 ys, rfl⟩
      · intro b hb
        rcases List.mem_cons.mp hb with rfl | hb2
        · exact hn
        · exact hcnt b hb2
      · rw [List.chain'_cons', heq]
        constructor
        · intro z hz
          simp only [List.head?_cons, Option.mem_def, Option.some.injEq] at hz
          cases hz
          exact fun hc => hxy hc.symm
        · rw [← heq]
          exact hch

/-- Normality and faithfulness of a successful compact-est rendering:
the output is a canonical sequence whose rebuilt segment expands to the
original verbose sequence. -/
theorem normal_of_compactest {s : Segment} {d : List CItem}
    (h : s.sequence_compactest = .ok d) :
    normalSeq d ∧ (segFromDef d).sequence = s.sequence := by
  unfold Segment.sequence_compactest Segment.sequence_compact at h
  rcases hseq : s.sequence with _ | ⟨x, xs⟩ <;> rw [hseq] at h
  · simp [Except.map] at h
  · simp only [Except.map] at h
    have hd : d = compactestOf (rleCore x 1 xs) := by
      cases h
      rfl
    subst hd
    obtain ⟨hcnt, hch, m, tl, heq⟩ := rleCore_spec xs x 1 (by omega)
    refine ⟨⟨?_, ?_, ?_⟩, ?_⟩
    · rw [heq]
      simp [compactestOf]
    · intro it hit
      simp only [compactestOf, List.mem_map] at hit
      obtain ⟨b, hb, rfl⟩ := hit
      have := hcnt b hb
      by_cases h1 : b.2 = 1
      · simp [h1, CItem.canonical]
      · simp [h1, CItem.canonical]
        omega
    · unfold compactestOf
      rw [List.chain'_map]
      refine List.Chain'.imp ?_ hch
      intro a b hab
      by_cases ha : a.2 = 1 <;> by_cases hb : b.2 = 1 <;>
        simp [ha, hb, CItem.species, hab]
    · rw [rle_decode xs x 1 (by omega)]
      simp

/-- Depth of an appended branch list is the max of the parts. -/
theorem gdDepthL_append : ∀ (a b : List GD),
    gdDepthL (a ++ b) = max (gdDepthL a) (gdDepthL b) := by
  intro a
  induction a with
  | nil => intro b; simp [gdDepthL]
  | cons gd rest ih =>
    intro b
    cases gd with
    | mk seq pts subs =>
      rw [List.cons_append]
      simp only [gdDepthL]
      rw [ih]
      omega

/-- Depth bound for a member of a branch list. -/
theorem gdDepthL_mem : ∀ (defs : List GD) (gd : GD), gd ∈ defs →
    gdDepthL [gd] ≤ gdDepthL defs := by
  intro defs
  induction defs with
  | nil => intro gd h; simp at h
  | cons hd rest ih =>
    intro gd h
    rcases List.mem_cons.mp h with rfl | h2
    · cases gd with
      | mk seq pts subs =>
        simp only [gdDepthL]
        omega
    · cases hd with
      | mk seq pts subs =>
        have := ih gd h2
        simp only [gdDepthL]
        omega

/-- Depth of a uniform entry block. -/
theorem gdDepthL_map_entry (occs : List Int) (seqc : List CItem) (subs : List GD) :
    gdDepthL (occs.map fun p => GD.mk seqc [p] subs) ≤ gdDepthL subs + 1 := by
  induction occs with
  | nil => simp [gdDepthL]
  | cons p ps ih =>
    rw [List.map_cons]
    simp only [gdDepthL]
    omega

/-- Facts about a successful graft enumeration: every emitted entry is in
normal form, and the nesting depth is strictly below the fuel. -/
theorem gg_output_facts :
    ∀ (fuel : Nat) (t : Topo) (r : Nat) (defs : List GD),
      get_grafts fuel t r = .ok defs →
      (∀ gd ∈ defs, GDNormal gd) ∧ gdDepthL defs < fuel := by
  intro fuel
  induction fuel with
  | zero => intro t r defs h; exact absurd h (by simp [get_grafts])
  | succ f ih =>
    intro t r defs h
    rw [get_grafts] at h
    suffices hfold : ∀ (es : List (Nat × GraftAttr)) (acc defs : List GD),
        (es.foldlM
          (fun acc ed =>
            if ed.2.graft_from ≠ 0 then
              .error "Chain enumeration currently only works if grafting from bead 0"
            else
              let occs := occsOf ed.2
              if occs.isEmpty then .ok acc
              else do
                let arm ← t.armAt ed.1
                let seqc ← arm.sequence_compactest
                let subs ← get_grafts f t ed.1
                .ok (acc ++ occs.map fun p => GD.mk seqc [p] subs))
          acc) = .ok defs →
        ∃ tl, defs = acc ++ tl ∧ (∀ gd ∈ tl, GDNormal gd) ∧ gdDepthL tl < f + 1 by
      obtain ⟨tl, htl, hnorm, hdep⟩ := hfold _ [] defs h
      rw [htl]
      simpa using ⟨hnorm, hdep⟩
    intro es
    induction es with
    | nil =>
      intro acc defs h2
      rw [exfoldlM_nil] at h2
      cases h2
      exact ⟨[], by simp, by simp, by simp [gdDepthL]⟩
    | cons ed es ihes =>
      intro acc defs h2
      rw [exfoldlM_cons] at h2
      obtain ⟨mid, hmid, hrest⟩ := exbind_ok.mp h2
      obtain ⟨tl2, rfl, hnorm2, hdep2⟩ := ihes mid defs hrest
      by_cases hg : ed.2.graft_from ≠ 0
      · simp [hg] at hmid
      · simp only [hg, if_false, ite_false, if_neg] at hmid
        by_cases he : (occsOf ed.2).isEmpty
        · rw [if_pos he] at hmid
          cases hmid
          exact ⟨tl2, rfl, hnorm2, hdep2⟩
        · rw [if_neg he] at hmid
          obtain ⟨arm, harm, hmid⟩ := exbind_ok.mp hmid
          obtain ⟨seqc, hseqc, hmid⟩ := exbind_ok.mp hmid
          obtain ⟨subs, hsubs, hmid⟩ := exbind_ok.mp hmid
          cases hmid
          obtain ⟨hsubnorm, hsubdep⟩ := ih t ed.1 subs hsubs
          obtain ⟨hseqnorm, _⟩ := normal_of_compactest hseqc
          refine ⟨(occsOf ed.2).map (fun p => GD.mk seqc [p] subs) ++ tl2,
            by simp, ?_, ?_⟩
          · intro gd hgd
            rcases List.mem_append.mp hgd with h1 | h1
            · obtain ⟨p, _, rfl⟩ := List.mem_map.mp h1
              exact GDNormal.mk seqc p subs hseqnorm hsubnorm
            · exact hnorm2 gd h1
          · rw [gdDepthL_append]
            have := gdDepthL_map_entry (occsOf ed.2) seqc subs
            omega

/-- Splitting the arms of a branch list at its head. -/
theorem gdArms_cons (gd : GD) (rest : List GD) :
    gdArms (gd :: rest) = gdArms [gd] ++ gdArms rest := by
  cases gd with
  | mk seq pts subs => simp [gdArms]

/-- Splitting the edges of a branch list at its head. -/
theorem gdEdges_cons (L u : Nat) (gd : GD) (rest : List GD) :
    gdEdges L u (gd :: rest) =
      gdEdges L u [gd] ++ gdEdges (L + (gdArms [gd]).length) u rest := by
  cases gd with
  | mk seq pts subs =>
    have harith : L + (gdArms [GD.mk seq pts subs]).length =
        L + 1 + (gdArms subs).length := by
      simp [gdArms]
      omega
    rw [harith]
    simp [gdEdges, gdArms, List.append_assoc]

/-- Successful integer root resolution implies the index is in range. -/
theorem get_armtype_index_int_ok {t : Topo} {u w : Nat}
    (h : t.get_armtype_index_int u = .ok w) :
    w = u ∧ u < t.arm_types.length := by
  unfold Topo.get_armtype_index_int at h
  by_cases hc : (u : Int) > (t.arm_types.length : Int) - 1
  · simp [hc] at h
  · rw [if_neg hc] at h
    cases h
    exact ⟨rfl, by omega⟩

/-- add_graft with graft end 0 always succeeds and appends the edge. -/
theorem add_graft_ok0 (t : Topo) (u v : Nat) (pts : List Int) (m : Nat) :
    t.add_graft u v pts 0 m = .ok { t with edges := t.edges ++ [(u, v, ⟨pts, 0, m⟩)] } := by
  simp [Topo.add_graft]

/-- Forward specification of the branch loop of add_path, given the
forward specification of add_path itself at the fuel used for sub-graft
recursion: a successful loop appends exactly the branch arms (depth
first) and the corresponding graft edges, leaving chain types as found. -/
theorem branch_fold_spec_of (fuel : Nat)
    (hap : ∀ (sg : GD) (t : Topo) (v : Nat) (r : Topo × Nat),
      add_path fuel t (.inl v) [sg] = .ok r →
      r.2 = v ∧ r.1.arm_types = t.arm_types ++ gdArms [sg] ∧
      r.1.edges = t.edges ++ gdEdges t.arm_types.length v [sg] ∧
      r.1.chain_types = t.chain_types) :
    ∀ (defs : List GD) (t : Topo) (u : Nat) (t' : Topo),
      (defs.foldlM
        (fun t2 gd => do
          let q := t2.add_armtype_fresh gd.seq
          let t3 ← q.1.add_graft u q.2 gd.pts 0 1
          gd.subs.foldlM
            (fun t4 sg => (add_path fuel t4 (.inl q.2) [sg]).map fun r : Topo × Nat => r.1)
            t3)
        t) = .ok t' →
      t'.arm_types = t.arm_types ++ gdArms defs ∧
      t'.edges = t.edges ++ gdEdges t.arm_types.length u defs ∧
      t'.chain_types = t.chain_types := by
  have hsubfold : ∀ (v : Nat) (subs : List GD) (t3 t4 : Topo),
      subs.foldlM
          (fun t5 sg => (add_path fuel t5 (.inl v) [sg]).map fun r : Topo × Nat => r.1) t3 =
        .ok t4 →
      t4.arm_types = t3.arm_types ++ gdArms subs ∧
      t4.edges = t3.edges ++ gdEdges t3.arm_types.length v subs ∧
      t4.chain_types = t3.chain_types := by
    intro v subs
    induction subs with
    | nil =>
      intro t3 t4 h
      rw [exfoldlM_nil] at h
      cases h
      simp [gdArms, gdEdges]
    | cons sg sgs ih =>
      intro t3 t4 h
      rw [exfoldlM_cons] at h
      obtain ⟨m1, hm1, hrest2⟩ := exbind_ok.mp h
      obtain ⟨r, hr, hm⟩ :
          ∃ r : Topo × Nat, add_path fuel t3 (.inl v) [sg] = .ok r ∧ r.1 = m1 := by
        cases hx : add_path fuel t3 (.inl v) [sg] with
        | error e => rw [hx] at hm1; simp [Except.map] at hm1
        | ok r =>
          rw [hx] at hm1
          simp only [Except.map, Except.ok.injEq] at hm1
          exact ⟨r, rfl, hm1⟩
      obtain ⟨_, e2, e3, e4⟩ := hap sg t3 v r hr
      obtain ⟨f1, f2, f3⟩ := ih r.1 t4 (hm ▸ hrest2)
      refine ⟨?_, ?_, ?_⟩
      · rw [f1, e2, gdArms_cons sg sgs, List.append_assoc]
      · rw [f2, e3, gdEdges_cons _ _ sg sgs, e2]
        simp [List.append_assoc, List.length_append]
      · rw [f3, e4]
  intro defs
  induction defs with
  | nil =>
    intro t u t' h
    rw [exfoldlM_nil] at h
    cases h
    simp [gdArms, gdEdges]
  | cons gd rest ihrest =>
    intro t u t' h
    rw [exfoldlM_cons] at h
    obtain ⟨mid, hmid, hrest⟩ := exbind_ok.mp h
    cases gd with
    | mk seq pts subs =>
      replace hmid :
          ((t.add_armtype_fresh seq).1.add_graft u (t.add_armtype_fresh seq).2 pts 0 1 >>=
            fun t3 =>
              subs.foldlM
                (fun t4 sg =>
                  (add_path fuel t4 (.inl (t.add_armtype_fresh seq).2) [sg]).map
                    fun r : Topo × Nat => r.1)
                t3) = .ok mid := hmid
      rw [add_graft_ok0, exOk_bind] at hmid
      obtain ⟨a1, a2, a3, a4⟩ := add_armtype_fresh_parts t seq
      obtain ⟨s1, s2, s3⟩ := hsubfold _ subs _ mid hmid
      obtain ⟨r1, r2, r3⟩ := ihrest mid u t' hrest
      have hlenA : (t.add_armtype_fresh seq).1.arm_types.length = t.arm_types.length + 1 := by
        rw [a1]; simp
      have hlenMid : mid.arm_types.length =
          t.arm_types.length + 1 + (gdArms subs).length := by
        rw [s1]
        simp only [List.length_append]
        rw [hlenA]
      refine ⟨?_, ?_, ?_⟩
      · rw [r1, s1, a1]
        simp only [GD.seq, gdArms, List.append_assoc, List.cons_append, List.nil_append]
      · rw [r2, s2, hlenMid, a3, a4, hlenA]
        simp only [GD.pts, GD.subs, gdEdges, List.append_assoc, List.cons_append,
          List.nil_append]
      · rw [r3, s3, a2]

/-- Forward specification of add_path on an integer root: success
implies the root index was in range and the result appends exactly the
branch arms and edges. -/
theorem add_path_inl_spec :
    ∀ (fuel : Nat) (defs : List GD) (t : Topo) (u : Nat) (r : Topo × Nat),
      add_path fuel t (.inl u) defs = .ok r →
      r.2 = u ∧ u < t.arm_types.length ∧
      r.1.arm_types = t.arm_types ++ gdArms defs ∧
      r.1.edges = t.edges ++ gdEdges t.arm_types.length u defs ∧
      r.1.chain_types = t.chain_types := by
  intro fuel
  induction fuel with
  | zero =>
    intro defs t u r h
    exact absurd h (by simp [add_path])
  | succ f ih =>
    intro defs t u r h
    replace h :
        ((t.get_armtype_index_int u).map (fun w => (t, w)) >>= fun p =>
          (defs.foldlM
            (fun t2 gd => do
              let q := t2.add_armtype_fresh gd.seq
              let t3 ← q.1.add_graft p.2 q.2 gd.pts 0 1
              gd.subs.foldlM
                (fun t4 sg => (add_path f t4 (.inl q.2) [sg]).map fun r => r.1)
                t3)
            p.1) >>= fun tEnd => .ok (tEnd, p.2)) = .ok r := h
    cases hg : t.get_armtype_index_int u with
    | error e =>
      rw [hg] at h
      simp [Except.map, exErr_bind] at h
    | ok w =>
      obtain ⟨hw, hu⟩ := get_armtype_index_int_ok hg
      subst hw
      rw [hg] at h
      simp only [Except.map] at h
      rw [exOk_bind] at h
      obtain ⟨tEnd, hfold, hocc⟩ := exbind_ok.mp h
      cases hocc
      have hap : ∀ (sg : GD) (t : Topo) (v : Nat) (r : Topo × Nat),
          add_path f t (.inl v) [sg] = .ok r →
          r.2 = v ∧ r.1.arm_types = t.arm_types ++ gdArms [sg] ∧
          r.1.edges = t.edges ++ gdEdges t.arm_types.length v [sg] ∧
          r.1.chain_types = t.chain_types := by
        intro sg t2 v r2 hr
        obtain ⟨q1, _, q3, q4, q5⟩ := ih [sg] t2 v r2 hr
        exact ⟨q1, q3, q4, q5⟩
      obtain ⟨b1, b2, b3⟩ := branch_fold_spec_of f hap defs t w tEnd hfold
      exact ⟨rfl, hu, b1, b2, b3⟩

/-- Forward specification of add_path on a fresh root definition:
success appends the root arm, then exactly the branch arms and edges,
and returns the root's index. -/
theorem add_path_inr_spec :
    ∀ (fuel : Nat) (rd : List CItem) (defs : List GD) (t : Topo) (r : Topo × Nat),
      add_path fuel t (.inr rd) defs = .ok r →
      r.2 = t.arm_types.length ∧
      r.1.arm_types = (t.arm_types ++ [segFromDef rd]) ++ gdArms defs ∧
      r.1.edges = t.edges ++ gdEdges (t.arm_types.length + 1) t.arm_types.length defs ∧
      r.1.chain_types = t.chain_types := by
  intro fuel
  cases fuel with
  | zero =>
    intro rd defs t r h
    exact absurd h (by simp [add_path])
  | succ f =>
    intro rd defs t r h
    replace h :
        ((Except.ok (t.add_armtype_fresh rd) : Except String (Topo × Nat)) >>= fun p =>
          (defs.foldlM
            (fun t2 gd => do
              let q := t2.add_armtype_fresh gd.seq
              let t3 ← q.1.add_graft p.2 q.2 gd.pts 0 1
              gd.subs.foldlM
                (fun t4 sg => (add_path f t4 (.inl q.2) [sg]).map fun r => r.1)
                t3)
            p.1) >>= fun tEnd => .ok (tEnd, p.2)) = .ok r := h
    rw [exOk_bind] at h
    obtain ⟨tEnd, hfold, hocc⟩ := exbind_ok.mp h
    cases hocc
    obtain ⟨a1, a2, a3, a4⟩ := add_armtype_fresh_parts t rd
    have hap : ∀ (sg : GD) (t : Topo) (v : Nat) (r : Topo × Nat),
        add_path f t (.inl v) [sg] = .ok r →
        r.2 = v ∧ r.1.arm_types = t.arm_types ++ gdArms [sg] ∧
        r.1.edges = t.edges ++ gdEdges t.arm_types.length v [sg] ∧
        r.1.chain_types = t.chain_types := by
      intro sg t2 v r2 hr
      obtain ⟨q1, _, q3, q4, q5⟩ := add_path_inl_spec f [sg] t2 v r2 hr
      exact ⟨q1, q3, q4, q5⟩
    obtain ⟨b1, b2, b3⟩ :=
      branch_fold_spec_of f hap defs (t.add_armtype_fresh rd).1
        (t.add_armtype_fresh rd).2 tEnd hfold
    have hlen : (t.add_armtype_fresh rd).1.arm_types.length = t.arm_types.length + 1 := by
      rw [a1]; simp
    refine ⟨a4, ?_, ?_, ?_⟩
    · rw [b1, a1]
    · rw [b2, a3, hlen, a4]
    · rw [b3, a2]

/-- Depth of a singleton branch list is at least one. -/
theorem gdDepthL_singleton_pos (sg : GD) : 1 ≤ gdDepthL [sg] := by
  cases sg with
  | mk seq pts subs => simp [gdDepthL]

/-- Depth of a tail never exceeds the depth of the list. -/
theorem gdDepthL_tail_le (gd : GD) (rest : List GD) :
    gdDepthL rest ≤ gdDepthL (gd :: rest) := by
  cases gd with
  | mk seq pts subs =>
    simp only [gdDepthL]
    omega

/-- Forward specification of the sub-graft loop: it appends the sub-tree
arms and edges. -/
theorem sub_fold_spec (fuel : Nat) (v : Nat) :
    ∀ (subs : List GD) (t3 t4 : Topo),
      subs.foldlM
        (fun t5 sg => (add_path fuel t5 (.inl v) [sg]).map fun r : Topo × Nat => r.1)
        t3 = .ok t4 →
      t4.arm_types = t3.arm_types ++ gdArms subs ∧
      t4.edges = t3.edges ++ gdEdges t3.arm_types.length v subs ∧
      t4.chain_types = t3.chain_types := by
  intro subs
  induction subs with
  | nil =>
    intro t3 t4 h
    rw [exfoldlM_nil] at h
    cases h
    simp [gdArms, gdEdges]
  | cons sg sgs ih =>
    intro t3 t4 h
    rw [exfoldlM_cons] at h
    obtain ⟨m1, hm1, hrest2⟩ := exbind_ok.mp h
    obtain ⟨r, hr, hm⟩ :
        ∃ r : Topo × Nat, add_path fuel t3 (.inl v) [sg] = .ok r ∧ r.1 = m1 := by
      cases hx : add_path fuel t3 (.inl v) [sg] with
      | error e => rw [hx] at hm1; simp [Except.map] at hm1
      | ok r =>
        rw [hx] at hm1
        simp only [Except.map, Except.ok.injEq] at hm1
        exact ⟨r, rfl, hm1⟩
    obtain ⟨_, _, e2, e3, e4⟩ := add_path_inl_spec fuel [sg] t3 v r hr
    obtain ⟨f1, f2, f3⟩ := ih r.1 t4 (hm ▸ hrest2)
    refine ⟨?_, ?_, ?_⟩
    · rw [f1, e2, gdArms_cons sg sgs, List.append_assoc]
    · rw [f2, e3, gdEdges_cons _ _ sg sgs, e2]
      simp [List.append_assoc, List.length_append]
    · rw [f3, e4]

/-- Totality of the sub-graft loop given totality of add_path at the
recursion fuel. -/
theorem sub_fold_total (fuel : Nat)
    (hap : ∀ (sg : GD) (t : Topo) (v : Nat),
      v < t.arm_types.length → gdDepthL [sg] ≤ fuel →
      ∃ r : Topo × Nat, add_path fuel t (.inl v) [sg] = .ok r) :
    ∀ (subs : List GD) (t3 : Topo) (v : Nat),
      v < t3.arm_types.length → gdDepthL subs ≤ fuel →
      ∃ t4, subs.foldlM
        (fun t5 sg => (add_path fuel t5 (.inl v) [sg]).map fun r : Topo × Nat => r.1)
        t3 = .ok t4 := by
  intro subs
  induction subs with
  | nil =>
    intro t3 v _ _
    exact ⟨t3, exfoldlM_nil _ _⟩
  | cons sg sgs ih =>
    intro t3 v hv hdep
    have h1 : gdDepthL [sg] ≤ fuel :=
      le_trans (gdDepthL_mem (sg :: sgs) sg (by simp)) hdep
    obtain ⟨r, hr⟩ := hap sg t3 v hv h1
    obtain ⟨_, _, e2, _, _⟩ := add_path_inl_spec fuel [sg] t3 v r hr
    have hv2 : v < r.1.arm_types.length := by
      rw [e2]
      simp only [List.length_append]
      omega
    have hdep2 : gdDepthL sgs ≤ fuel := le_trans (gdDepthL_tail_le sg sgs) hdep
    obtain ⟨t4, h4⟩ := ih r.1 v hv2 hdep2
    refine ⟨t4, ?_⟩
    rw [exfoldlM_cons, hr]
    simp only [Except.map]
    rw [exOk_bind]
    exact h4

/-- Totality of the branch loop of add_path, given totality of add_path
at the fuel used for sub-graft recursion. -/
theorem branch_fold_total_of (fuel : Nat)
    (hap : ∀ (sg : GD) (t : Topo) (v : Nat),
      v < t.arm_types.length → gdDepthL [sg] ≤ fuel →
      ∃ r : Topo × Nat, add_path fuel t (.inl v) [sg] = .ok r) :
    ∀ (defs : List GD) (t2 : Topo) (u2 : Nat),
      u2 < t2.arm_types.length → gdDepthL defs ≤ fuel + 1 →
      ∃ t', (defs.foldlM
        (fun t3 gd => do
          let q := t3.add_armtype_fresh gd.seq
          let t4 ← q.1.add_graft u2 q.2 gd.pts 0 1
          gd.subs.foldlM
            (fun t5 sg => (add_path fuel t5 (.inl q.2) [sg]).map fun r : Topo × Nat => r.1)
            t4)
        t2) = .ok t' := by
  intro defs
  induction defs with
  | nil =>
    intro t2 u2 _ _
    exact ⟨t2, exfoldlM_nil _ _⟩
  | cons gd rest ihrest =>
    intro t2 u2 hu2 hdep2
    cases gd with
    | mk seq pts subs =>
      obtain ⟨a1, a2, a3, a4⟩ := add_armtype_fresh_parts t2 seq
      have hsubdep : gdDepthL subs ≤ fuel := by
        have hh : gdDepthL (GD.mk seq pts subs :: rest) =
            max (gdDepthL subs + 1) (gdDepthL rest) := by simp [gdDepthL]
        omega
      have hv : (t2.add_armtype_fresh seq).2 <
          (Topo.arm_types { (t2.add_armtype_fresh seq).1 with
            edges := (t2.add_armtype_fresh seq).1.edges ++
              [(u2, (t2.add_armtype_fresh seq).2,
                (⟨pts, 0, 1⟩ : GraftAttr))] }).length := by
        show (t2.add_armtype_fresh seq).2 < (t2.add_armtype_fresh seq).1.arm_types.length
        rw [a1, a4]
        simp
      obtain ⟨t4, h4⟩ := sub_fold_total fuel hap subs _ _ hv hsubdep
      obtain ⟨s1, _, _⟩ := sub_fold_spec fuel _ subs _ _ h4
      have hu4 : u2 < t4.arm_types.length := by
        rw [s1]
        show u2 < (Topo.arm_types { (t2.add_armtype_fresh seq).1 with
            edges := (t2.add_armtype_fresh seq).1.edges ++
              [(u2, (t2.add_armtype_fresh seq).2,
                (⟨pts, 0, 1⟩ : GraftAttr))] } ++ gdArms subs).length
        show u2 < ((t2.add_armtype_fresh seq).1.arm_types ++ gdArms subs).length
        rw [a1]
        simp only [List.length_append, List.length_cons]
        omega
      have hdeprest : gdDepthL rest ≤ fuel + 1 :=
        le_trans (gdDepthL_tail_le _ rest) hdep2
      obtain ⟨t', h'⟩ := ihrest t4 u2 hu4 hdeprest
      refine ⟨t', ?_⟩
      rw [exfoldlM_cons]
      have hstep :
          (((t2.add_armtype_fresh seq).1.add_graft u2 (t2.add_armtype_fresh seq).2
            pts 0 1) >>= fun t5 =>
              subs.foldlM
                (fun t6 sg =>
                  (add_path fuel t6 (.inl (t2.add_armtype_fresh seq).2) [sg]).map
                    fun r : Topo × Nat => r.1)
                t5) = .ok t4 := by
        rw [add_graft_ok0, exOk_bind]
        exact h4
      show (((t2.add_armtype_fresh seq).1.add_graft u2 (t2.add_armtype_fresh seq).2
          pts 0 1) >>= fun t5 =>
            subs.foldlM
              (fun t6 sg =>
                (add_path fuel t6 (.inl (t2.add_armtype_fresh seq).2) [sg]).map
                  fun r : Topo × Nat => r.1)
              t5) >>=
        (fun b2 => rest.foldlM
          (fun t3 gd => do
            let q := t3.add_armtype_fresh gd.seq
            let t4 ← q.1.add_graft u2 q.2 gd.pts 0 1
            gd.subs.foldlM
              (fun t5 sg => (add_path fuel t5 (.inl q.2) [sg]).map fun r : Topo × Nat => r.1)
              t4)
          b2) = .ok t'
      rw [hstep]
      exact (exOk_bind _ _).trans h'

/-- Totality of add_path on an in-range integer root with sufficient
fuel. -/
theorem add_path_inl_total :
    ∀ (fuel : Nat) (defs : List GD) (t : Topo) (u : Nat),
      u < t.arm_types.length → gdDepthL defs ≤ fuel → 1 ≤ fuel →
      ∃ r : Topo × Nat, add_path fuel t (.inl u) defs = .ok r := by
  intro fuel
  induction fuel with
  | zero =>
    intro defs t u _ _ h1
    omega
  | succ f ih =>
    intro defs t u hu hdep _
    have hap : ∀ (sg : GD) (t : Topo) (v : Nat),
        v < t.arm_types.length → gdDepthL [sg] ≤ f →
        ∃ r : Topo × Nat, add_path f t (.inl v) [sg] = .ok r := by
      intro sg t2 v hv hd
      exact ih [sg] t2 v hv hd (le_trans (gdDepthL_singleton_pos sg) hd)
    obtain ⟨tEnd, hE⟩ := branch_fold_total_of f hap defs t u hu hdep
    refine ⟨(tEnd, u), ?_⟩
    have hchk : t.get_armtype_index_int u = .ok u := by
      unfold Topo.get_armtype_index_int
      rw [if_neg (by omega)]
    show ((t.get_armtype_index_int u).map (fun w => (t, w)) >>= fun p =>
      (defs.foldlM
        (fun t2 gd => do
          let q := t2.add_armtype_fresh gd.seq
          let t3 ← q.1.add_graft p.2 q.2 gd.pts 0 1
          gd.subs.foldlM
            (fun t4 sg => (add_path f t4 (.inl q.2) [sg]).map fun r : Topo × Nat => r.1)
            t3)
        p.1) >>= fun tEnd2 => .ok (tEnd2, p.2)) = .ok (tEnd, u)
    rw [hchk]
    simp only [Except.map]
    rw [exOk_bind]
    show (defs.foldlM
        (fun t2 gd => do
          let q := t2.add_armtype_fresh gd.seq
          let t3 ← q.1.add_graft u q.2 gd.pts 0 1
          gd.subs.foldlM
            (fun t4 sg => (add_path f t4 (.inl q.2) [sg]).map fun r : Topo × Nat => r.1)
            t3)
        t) >>= (fun tEnd2 => .ok (tEnd2, u)) = .ok (tEnd, u)
    rw [hE]
    exact exOk_bind _ _

/-- Totality of add_path on a fresh root definition with sufficient
fuel. -/
theorem add_path_inr_total :
    ∀ (fuel : Nat) (rd : List CItem) (defs : List GD) (t : Topo),
      gdDepthL defs ≤ fuel → 1 ≤ fuel →
      ∃ r : Topo × Nat, add_path fuel t (.inr rd) defs = .ok r := by
  intro fuel rd defs t hdep hf
  cases fuel with
  | zero => omega
  | succ f =>
    have hap : ∀ (sg : GD) (t : Topo) (v : Nat),
        v < t.arm_types.length → gdDepthL [sg] ≤ f →
        ∃ r : Topo × Nat, add_path f t (.inl v) [sg] = .ok r := by
      intro sg t2 v hv hd
      exact add_path_inl_total f [sg] t2 v hv hd
        (le_trans (gdDepthL_singleton_pos sg) hd)
    obtain ⟨a1, a2, a3, a4⟩ := add_armtype_fresh_parts t rd
    have hu : (t.add_armtype_fresh rd).2 < (t.add_armtype_fresh rd).1.arm_types.length := by
      rw [a1, a4]
      simp
    obtain ⟨tEnd, hE⟩ := branch_fold_total_of f hap defs (t.add_armtype_fresh rd).1
      (t.add_armtype_fresh rd).2 hu hdep
    refine ⟨(tEnd, (t.add_armtype_fresh rd).2), ?_⟩
    show (defs.foldlM
        (fun t2 gd => do
          let q := t2.add_armtype_fresh gd.seq
          let t3 ← q.1.add_graft (t.add_armtype_fresh rd).2 q.2 gd.pts 0 1
          gd.subs.foldlM
            (fun t4 sg => (add_path f t4 (.inl q.2) [sg]).map fun r : Topo × Nat => r.1)
            t3)
        (t.add_armtype_fresh rd).1) >>=
      (fun tEnd2 => .ok (tEnd2, (t.add_armtype_fresh rd).2)) =
        .ok (tEnd, (t.add_armtype_fresh rd).2)
    rw [hE]
    exact exOk_bind _ _

/-- filterMap of a function that rejects every element of a list. -/
theorem filterMap_none {α β : Type} (f : α → Option β) :
    ∀ (l : List α), (∀ a ∈ l, f a = none) → l.filterMap f = [] := by
  intro l
  induction l with
  | nil => intro _; rfl
  | cons x xs ih =>
    intro h
    rw [List.filterMap_cons, h x (List.mem_cons_self x xs)]
    exact ih fun a ha => h a (List.mem_cons_of_mem x ha)

/-- Arm lookup at the length of a known prefix of the arm list. -/
theorem armAt_pre (H : Topo) (pre : List Segment) (s : Segment) (tail : List Segment)
    (h : H.arm_types = pre ++ s :: tail) : H.armAt pre.length = .ok s := by
  unfold Topo.armAt
  rw [h, List.getElem?_append_right (Nat.le_refl pre.length)]
  simp

/-- Sources of built graft edges: the base arm or an arm inside the built
region. -/
theorem gdEdges_srcs :
    ∀ (D : List GD) (L u : Nat) (e : Nat × Nat × GraftAttr),
      e ∈ gdEdges L u D → e.1 = u ∨ (L ≤ e.1 ∧ e.1 < L + (gdArms D).length)
  | [], L, u, e => by
    intro h
    simp [gdEdges] at h
  | .mk seq pts subs :: rest, L, u, e => by
    intro h
    have hlen : (gdArms (GD.mk seq pts subs :: rest)).length =
        (gdArms subs).length + (gdArms rest).length + 1 := by
      simp only [gdArms, List.length_cons, List.length_append]
    simp only [gdEdges, List.mem_cons, List.mem_append] at h
    rcases h with rfl | h | h
    · left; rfl
    · rcases gdEdges_srcs subs (L + 1) L e h with h1 | ⟨h1, h2⟩
      · right; omega
      · right; omega
    · rcases gdEdges_srcs rest (L + 1 + (gdArms subs).length) u e h with h1 | ⟨h1, h2⟩
      · left; exact h1
      · right; omega

/-- Filtering the built edges of a region for the base source recovers
exactly the top-level entries. -/
theorem gdEdges_pick (u : Nat) :
    ∀ (D : List GD) (L : Nat), u < L →
      (gdEdges L u D).filterMap
        (fun e => if e.1 = u then some (e.2.1, e.2.2) else none) = edgeEntries L D
  | [], L => by
    intro _
    simp [gdEdges, edgeEntries]
  | .mk seq pts subs :: rest, L => by
    intro hu
    have hunf : gdEdges L u (GD.mk seq pts subs :: rest) =
        (u, L, (⟨pts, 0, 1⟩ : GraftAttr)) ::
          (gdEdges (L + 1) L subs ++
            gdEdges (L + 1 + (gdArms subs).length) u rest) := by
      simp [gdEdges]
    have hhead : (fun e : Nat × Nat × GraftAttr =>
        if e.1 = u then some (e.2.1, e.2.2) else none) (u, L, ⟨pts, 0, 1⟩) =
          some (L, ⟨pts, 0, 1⟩) := by
      simp
    have hsub : (gdEdges (L + 1) L subs).filterMap
        (fun e => if e.1 = u then some (e.2.1, e.2.2) else none) = [] := by
      refine filterMap_none _ _ (fun e he => ?_)
      have hne : e.1 ≠ u := by
        rcases gdEdges_srcs subs (L + 1) L e he with h1 | ⟨h1, _⟩ <;> omega
      exact if_neg hne
    rw [hunf]
    simp [List.filterMap_cons, List.filterMap_append, hsub,
      gdEdges_pick u rest (L + 1 + (gdArms subs).length) (by omega), edgeEntries]

/-- get_grafts recovers exactly the branch definitions of a region built
by add_path, provided no outside edge points into the region. -/
theorem enum_built :
    ∀ (fuel : Nat) (H : Topo) (u L : Nat) (D : List GD)
      (A B : List (Nat × Nat × GraftAttr)) (pre post : List Segment),
      H.edges = A ++ gdEdges L u D ++ B →
      (∀ e ∈ A, e.1 ≠ u ∧ ¬(L ≤ e.1 ∧ e.1 < L + (gdArms D).length)) →
      (∀ e ∈ B, e.1 ≠ u ∧ ¬(L ≤ e.1 ∧ e.1 < L + (gdArms D).length)) →
      H.arm_types = pre ++ gdArms D ++ post →
      pre.length = L →
      u < L →
      (∀ gd ∈ D, GDNormal gd) →
      gdDepthL D < fuel →
      get_grafts fuel H u = .ok D := by
  intro fuel
  induction fuel with
  | zero =>
    intro H u L D A B pre post _ _ _ _ _ _ _ hdep
    omega
  | succ f ih =>
    intro H u L D A B pre post hedges hA hB harms hpre hu hn hdep
    have hfold : ∀ (D2 : List GD), ∀ (L2 : Nat) (A2 B2 : List (Nat × Nat × GraftAttr))
        (pre2 post2 : List Segment) (acc : List GD),
        H.edges = A2 ++ gdEdges L2 u D2 ++ B2 →
        (∀ e ∈ A2, ¬(L2 ≤ e.1 ∧ e.1 < L2 + (gdArms D2).length)) →
        (∀ e ∈ B2, ¬(L2 ≤ e.1 ∧ e.1 < L2 + (gdArms D2).length)) →
        H.arm_types = pre2 ++ gdArms D2 ++ post2 →
        pre2.length = L2 →
        u < L2 →
        (∀ gd ∈ D2, GDNormal gd) →
        gdDepthL D2 < f + 1 →
        (edgeEntries L2 D2).foldlM
          (fun acc2 ed =>
            if ed.2.graft_from ≠ 0 then
              .error "Chain enumeration currently only works if grafting from bead 0"
            else
              let occs := occsOf ed.2
              if occs.isEmpty then .ok acc2
              else do
                let arm ← H.armAt ed.1
                let seqc ← arm.sequence_compactest
                let subs ← get_grafts f H ed.1
                .ok (acc2 ++ occs.map fun p => GD.mk seqc [p] subs))
          acc = .ok (acc ++ D2) := by
      intro D2
      induction D2 with
      | nil =>
        intro L2 A2 B2 pre2 post2 acc _ _ _ _ _ _ _ _
        have hee : edgeEntries L2 ([] : List GD) = [] := by simp [edgeEntries]
        rw [hee, exfoldlM_nil]
        simp
      | cons gd rest ihD =>
        intro L2 A2 B2 pre2 post2 acc hedges2 hA2 hB2 harms2 hpre2 hu2 hn2 hdep2
        have hgdn := hn2 gd (List.mem_cons_self gd rest)
        cases hgdn with
        | mk seq p subs hseq hsubN =>
          have hGlen : (gdArms (GD.mk seq [p] subs :: rest)).length =
              (gdArms subs).length + (gdArms rest).length + 1 := by
            simp only [gdArms, List.length_cons, List.length_append]
          have hd : gdDepthL (GD.mk seq [p] subs :: rest) =
              max (gdDepthL subs + 1) (gdDepthL rest) := by
            simp [gdDepthL]
          have harm0 : H.arm_types = pre2 ++ segFromDef seq ::
              ((gdArms subs ++ gdArms rest) ++ post2) := by
            rw [harms2]
            simp [gdArms, List.append_assoc]
          have harmAt : H.armAt L2 = .ok (segFromDef seq) := by
            rw [← hpre2]
            exact armAt_pre H pre2 _ _ harm0
          have hedgesS : H.edges = (A2 ++ [((u : Nat), L2, (⟨[p], 0, 1⟩ : GraftAttr))]) ++
              gdEdges (L2 + 1) L2 subs ++
              (gdEdges (L2 + 1 + (gdArms subs).length) u rest ++ B2) := by
            rw [hedges2]
            simp [gdEdges, List.append_assoc]
          have hAS : ∀ e ∈ A2 ++ [((u : Nat), L2, (⟨[p], 0, 1⟩ : GraftAttr))],
              e.1 ≠ L2 ∧ ¬(L2 + 1 ≤ e.1 ∧ e.1 < L2 + 1 + (gdArms subs).length) := by
            intro e he
            rcases List.mem_append.mp he with he | he
            · have := hA2 e he
              constructor <;> omega
            · have he2 := List.mem_singleton.mp he
              subst he2
              refine ⟨?_, ?_⟩
              · show u ≠ L2
                omega
              · show ¬(L2 + 1 ≤ u ∧ u < L2 + 1 + (gdArms subs).length)
                omega
          have hBS : ∀ e ∈ gdEdges (L2 + 1 + (gdArms subs).length) u rest ++ B2,
              e.1 ≠ L2 ∧ ¬(L2 + 1 ≤ e.1 ∧ e.1 < L2 + 1 + (gdArms subs).length) := by
            intro e he
            rcases List.mem_append.mp he with he | he
            · rcases gdEdges_srcs rest (L2 + 1 + (gdArms subs).length) u e he with
                h1 | ⟨h1, h2⟩
              · constructor <;> omega
              · constructor <;> omega
            · have := hB2 e he
              constructor <;> omega
          have harmsS : H.arm_types = (pre2 ++ [segFromDef seq]) ++ gdArms subs ++
              (gdArms rest ++ post2) := by
            rw [harms2]
            simp [gdArms, List.append_assoc]
          have hpreS : (pre2 ++ [segFromDef seq]).length = L2 + 1 := by
            simp [hpre2]
          have hdepS : gdDepthL subs < f := by
            omega
          have hgg : get_grafts f H L2 = .ok subs :=
            ih H L2 (L2 + 1) subs (A2 ++ [((u : Nat), L2, (⟨[p], 0, 1⟩ : GraftAttr))])
              (gdEdges (L2 + 1 + (gdArms subs).length) u rest ++ B2)
              (pre2 ++ [segFromDef seq]) (gdArms rest ++ post2)
              hedgesS hAS hBS harmsS hpreS (by omega) hsubN hdepS
          have hcomp : (segFromDef seq).sequence_compactest = .ok seq :=
            compactest_roundtrip hseq
          have hedgesR : H.edges = (A2 ++ (((u : Nat), L2, (⟨[p], 0, 1⟩ : GraftAttr)) ::
              gdEdges (L2 + 1) L2 subs)) ++
              gdEdges (L2 + 1 + (gdArms subs).length) u rest ++ B2 := by
            rw [hedges2]
            simp [gdEdges, List.append_assoc]
          have hAR : ∀ e ∈ A2 ++ (((u : Nat), L2, (⟨[p], 0, 1⟩ : GraftAttr)) ::
              gdEdges (L2 + 1) L2 subs),
              ¬(L2 + 1 + (gdArms subs).length ≤ e.1 ∧
                e.1 < L2 + 1 + (gdArms subs).length + (gdArms rest).length) := by
            intro e he
            rcases List.mem_append.mp he with he | he
            · have := hA2 e he
              omega
            · rcases List.mem_cons.mp he with he | he
              · subst he
                show ¬(L2 + 1 + (gdArms subs).length ≤ u ∧
                  u < L2 + 1 + (gdArms subs).length + (gdArms rest).length)
                omega
              · rcases gdEdges_srcs subs (L2 + 1) L2 e he with h1 | ⟨h1, h2⟩ <;> omega
          have hBR : ∀ e ∈ B2,
              ¬(L2 + 1 + (gdArms subs).length ≤ e.1 ∧
                e.1 < L2 + 1 + (gdArms subs).length + (gdArms rest).length) := by
            intro e he
            have := hB2 e he
            omega
          have harmsR : H.arm_types = (pre2 ++ segFromDef seq :: gdArms subs) ++
              gdArms rest ++ post2 := by
            rw [harms2]
            simp [gdArms, List.append_assoc]
          have hpreR : (pre2 ++ segFromDef seq :: gdArms subs).length =
              L2 + 1 + (gdArms subs).length := by
            simp only [List.length_append, List.length_cons, hpre2]
            omega
          have hrest := ihD (L2 + 1 + (gdArms subs).length)
            (A2 ++ (((u : Nat), L2, (⟨[p], 0, 1⟩ : GraftAttr)) ::
              gdEdges (L2 + 1) L2 subs)) B2
            (pre2 ++ segFromDef seq :: gdArms subs) post2
            (acc ++ [GD.mk seq [p] subs])
            hedgesR hAR hBR harmsR hpreR (by omega)
            (fun g hg => hn2 g (List.mem_cons_of_mem _ hg)) (by omega)
          have hee : edgeEntries L2 (GD.mk seq [p] subs :: rest) =
              (L2, (⟨[p], 0, 1⟩ : GraftAttr)) ::
                edgeEntries (L2 + 1 + (gdArms subs).length) rest := by
            simp [edgeEntries]
          rw [hee, exfoldlM_cons]
          show ((H.armAt L2 >>= fun arm =>
              arm.sequence_compactest >>= fun seqc =>
                get_grafts f H L2 >>= fun subs2 =>
                  .ok (acc ++ [p].map fun p2 => GD.mk seqc [p2] subs2)) >>=
            fun b2 => (edgeEntries (L2 + 1 + (gdArms subs).length) rest).foldlM
              (fun acc2 ed =>
                if ed.2.graft_from ≠ 0 then
                  .error "Chain enumeration currently only works if grafting from bead 0"
                else
                  let occs := occsOf ed.2
                  if occs.isEmpty then .ok acc2
                  else do
                    let arm ← H.armAt ed.1
                    let seqc ← arm.sequence_compactest
                    let subs ← get_grafts f H ed.1
                    .ok (acc2 ++ occs.map fun p => GD.mk seqc [p] subs))
              b2) = .ok (acc ++ GD.mk seq [p] subs :: rest)
          rw [harmAt]
          simp only [exOk_bind]
          rw [hcomp]
          simp only [exOk_bind]
          rw [hgg]
          simp only [exOk_bind]
          have hfin : (acc ++ [GD.mk seq [p] subs]) ++ rest =
              acc ++ GD.mk seq [p] subs :: rest := by
            simp
          rw [hfin] at hrest
          exact hrest
    have houtE : H.outEdges u = edgeEntries L D := by
      show H.edges.filterMap
          (fun e => if e.1 = u then some (e.2.1, e.2.2) else none) = edgeEntries L D
      rw [hedges, List.filterMap_append, List.filterMap_append]
      have hfa : A.filterMap (fun e : Nat × Nat × GraftAttr =>
          if e.1 = u then some (e.2.1, e.2.2) else none) = [] :=
        filterMap_none _ A (fun e he => if_neg (hA e he).1)
      have hfb : B.filterMap (fun e : Nat × Nat × GraftAttr =>
          if e.1 = u then some (e.2.1, e.2.2) else none) = [] :=
        filterMap_none _ B (fun e he => if_neg (hB e he).1)
      rw [hfa, hfb, gdEdges_pick u D L hu]
      simp
    rw [get_grafts, houtE]
    have hmain := hfold D L A B pre post [] hedges (fun e he => (hA e he).2)
      (fun e he => (hB e he).2) harms hpre hu hn hdep
    rw [List.nil_append] at hmain
    exact hmain

/-- Per-chain extraction stream of fully_enumerate: for every chain
(name, root) the root arm's compact-est sequence and its enumerated
grafts. -/
def streamOf (fuel : Nat) (t : Topo) :
    List (String × Nat) → Except String (List (String × List CItem × List GD))
  | [] => .ok []
  | ch :: rest => do
      let arm ← t.armAt ch.2
      let defs ← get_grafts fuel t ch.2
      let seqc ← arm.sequence_compactest
      let S ← streamOf fuel t rest
      .ok ((ch.1, seqc, defs) :: S)

/-- Arms of the topology built by fully_enumerate from a stream. -/
def bArms : List (String × List CItem × List GD) → List Segment
  | [] => []
  | (_, seqc, defs) :: rest => (segFromDef seqc :: gdArms defs) ++ bArms rest

/-- Edges of the topology built by fully_enumerate from a stream when the
next free arm index is L. -/
def bEdges : Nat → List (String × List CItem × List GD) → List (Nat × Nat × GraftAttr)
  | _, [] => []
  | L, (_, _, defs) :: rest =>
      gdEdges (L + 1) L defs ++ bEdges (L + 1 + (gdArms defs).length) rest

/-- Chain-type map of the topology built by fully_enumerate from a
stream. -/
def bChains : Nat → List (String × Nat) →
    List (String × List CItem × List GD) → List (String × Nat)
  | _, acc, [] => acc
  | L, acc, (name, _, defs) :: rest =>
      bChains (L + 1 + (gdArms defs).length) (dictSet acc name L) rest

/-- Chain roots of the built topology, as (name, root index) pairs. -/
def chainRoots : Nat → List (String × List CItem × List GD) → List (String × Nat)
  | _, [] => []
  | L, (name, _, defs) :: rest => (name, L) :: chainRoots (L + 1 + (gdArms defs).length) rest

/-- Built arms split over a stream concatenation. -/
theorem bArms_append : ∀ (a b : List (String × List CItem × List GD)),
    bArms (a ++ b) = bArms a ++ bArms b := by
  intro a
  induction a with
  | nil => intro b; simp [bArms]
  | cons e rest ih =>
    intro b
    obtain ⟨n, sc, d⟩ := e
    simp [bArms, ih, List.append_assoc]

/-- Built edges split over a stream concatenation. -/
theorem bEdges_append : ∀ (a b : List (String × List CItem × List GD)) (L : Nat),
    bEdges L (a ++ b) = bEdges L a ++ bEdges (L + (bArms a).length) b := by
  intro a
  induction a with
  | nil => intro b L; simp [bEdges, bArms]
  | cons e rest ih =>
    intro b L
    obtain ⟨n, sc, d⟩ := e
    simp only [List.cons_append, bEdges, List.append_eq]
    rw [ih]
    rw [show L + 1 + (gdArms d).length + (bArms rest).length =
        L + (bArms ((n, sc, d) :: rest)).length from by
      simp only [bArms, List.length_append, List.length_cons]
      omega]
    rw [List.append_assoc]

/-- Sources of built edges lie inside the built region. -/
theorem bEdges_srcs : ∀ (S : List (String × List CItem × List GD)) (L : Nat)
    (e : Nat × Nat × GraftAttr),
    e ∈ bEdges L S → L ≤ e.1 ∧ e.1 < L + (bArms S).length := by
  intro S
  induction S with
  | nil => intro L e h; simp [bEdges] at h
  | cons entry rest ih =>
    intro L e h
    obtain ⟨n, sc, d⟩ := entry
    have hlen : (bArms ((n, sc, d) :: rest)).length =
        (gdArms d).length + (bArms rest).length + 1 := by
      simp only [bArms, List.length_append, List.length_cons]
      omega
    simp only [bEdges, List.mem_append] at h
    rcases h with h | h
    · rcases gdEdges_srcs d (L + 1) L e h with h1 | ⟨h1, h2⟩
      · omega
      · constructor <;> omega
    · have := ih (L + 1 + (gdArms d).length) e h
      constructor <;> omega

/-- dict assignment with a fresh key appends the binding. -/
theorem dictSet_fresh (m : List (String × Nat)) (k : String) (v : Nat)
    (h : ∀ p ∈ m, p.1 ≠ k) : dictSet m k v = m ++ [(k, v)] := by
  unfold dictSet
  have hfalse : (m.any fun p => p.1 = k) = false := by
    rw [List.any_eq_false]
    intro p hp
    simpa using h p hp
  rw [hfalse]
  simp

/-- With fresh, pairwise distinct names the built chain map is the
accumulator followed by the chain roots. -/
theorem bChains_eq_chainRoots :
    ∀ (S : List (String × List CItem × List GD)) (L : Nat) (acc : List (String × Nat)),
      (acc.map Prod.fst ++ S.map fun e : String × List CItem × List GD => e.1).Nodup →
      bChains L acc S = acc ++ chainRoots L S := by
  intro S
  induction S with
  | nil =>
    intro L acc _
    simp [bChains, chainRoots]
  | cons entry rest ih =>
    intro L acc hnd
    obtain ⟨n, sc, d⟩ := entry
    have hfresh : ∀ p ∈ acc, p.1 ≠ n := by
      intro p hp
      simp only [List.map_cons, List.nodup_append] at hnd
      intro hcontra
      exact hnd.2.2 (List.mem_map_of_mem Prod.fst hp) (by simp [hcontra])
    have hset := dictSet_fresh acc n L hfresh
    show bChains (L + 1 + (gdArms d).length) (dictSet acc n L) rest =
      acc ++ (n, L) :: chainRoots (L + 1 + (gdArms d).length) rest
    rw [hset, ih (L + 1 + (gdArms d).length) (acc ++ [(n, L)]) (by
      simp only [List.map_append, List.map_cons, List.map_nil] at hnd ⊢
      simpa [List.append_assoc] using hnd)]
    simp

/-- Forward specification of the chain fold of fully_enumerate: success
produces exactly the topology built from the extraction stream, whose
entries are normal and within the fuel depth. -/
theorem fe_fold_shape (fuel : Nat) (t : Topo) :
    ∀ (chs : List (String × Nat)) (ft H : Topo),
      (chs.foldlM
        (fun ft ch => do
          let arm ← t.armAt ch.2
          let defs ← get_grafts fuel t ch.2
          let seqc ← arm.sequence_compactest
          let r ← add_path fuel ft (.inr seqc) defs
          .ok { r.1 with chain_types := dictSet r.1.chain_types ch.1 r.2 })
        ft) = .ok H →
      ∃ S, streamOf fuel t chs = .ok S ∧
        H.arm_types = ft.arm_types ++ bArms S ∧
        H.edges = ft.edges ++ bEdges ft.arm_types.length S ∧
        H.chain_types = bChains ft.arm_types.length ft.chain_types S ∧
        (S.map fun e : String × List CItem × List GD => e.1) = chs.map Prod.fst ∧
        (∀ e ∈ S, normalSeq e.2.1 ∧ (∀ gd ∈ e.2.2, GDNormal gd) ∧
          gdDepthL e.2.2 < fuel) := by
  intro chs
  induction chs with
  | nil =>
    intro ft H h
    rw [exfoldlM_nil] at h
    injection h with h
    subst h
    refine ⟨[], rfl, by simp [bArms], by simp [bEdges], by simp [bChains], rfl, by simp⟩
  | cons ch rest ihc =>
    intro ft H h
    rw [exfoldlM_cons] at h
    replace h : ((t.armAt ch.2 >>= fun arm =>
        get_grafts fuel t ch.2 >>= fun defs =>
          arm.sequence_compactest >>= fun seqc =>
            add_path fuel ft (.inr seqc) defs >>= fun r =>
              .ok { r.1 with chain_types := dictSet r.1.chain_types ch.1 r.2 }) >>=
      fun ft2 => rest.foldlM
        (fun ft ch => do
          let arm ← t.armAt ch.2
          let defs ← get_grafts fuel t ch.2
          let seqc ← arm.sequence_compactest
          let r ← add_path fuel ft (.inr seqc) defs
          .ok { r.1 with chain_types := dictSet r.1.chain_types ch.1 r.2 })
        ft2) = .ok H := h
    obtain ⟨ft2, hstep, hrest⟩ := exbind_ok.mp h
    obtain ⟨arm, harm, hstep⟩ := exbind_ok.mp hstep
    obtain ⟨defs, hdefs, hstep⟩ := exbind_ok.mp hstep
    obtain ⟨seqc, hseqc, hstep⟩ := exbind_ok.mp hstep
    obtain ⟨r, hr, hstep⟩ := exbind_ok.mp hstep
    injection hstep with hstep
    subst hstep
    obtain ⟨S2, hS2, harm2, hedg2, hch2, hnames2, hnorm2⟩ := ihc _ H hrest
    obtain ⟨hr2, hrarm, hredg, hrch⟩ := add_path_inr_spec fuel seqc defs ft r hr
    have hfta : (Topo.arm_types { r.1 with
        chain_types := dictSet r.1.chain_types ch.1 r.2 }) = r.1.arm_types := rfl
    have hfte : (Topo.edges { r.1 with
        chain_types := dictSet r.1.chain_types ch.1 r.2 }) = r.1.edges := rfl
    have hftc : (Topo.chain_types { r.1 with
        chain_types := dictSet r.1.chain_types ch.1 r.2 }) =
          dictSet r.1.chain_types ch.1 r.2 := rfl
    rw [hfta, hrarm] at harm2
    rw [hfte, hfta, hredg, hrarm] at hedg2
    rw [hftc, hfta, hrch, hrarm, hr2] at hch2
    have hlen2 : ((ft.arm_types ++ [segFromDef seqc]) ++ gdArms defs).length =
        ft.arm_types.length + 1 + (gdArms defs).length := by
      simp only [List.length_append, List.length_cons, List.length_nil]
    rw [hlen2] at hedg2 hch2
    have hnseq : normalSeq seqc := (normal_of_compactest hseqc).1
    have hgg := gg_output_facts fuel t ch.2 defs hdefs
    refine ⟨(ch.1, seqc, defs) :: S2, ?_, ?_, ?_, ?_, ?_, ?_⟩
    · show (t.armAt ch.2 >>= fun a2 =>
          get_grafts fuel t ch.2 >>= fun d2 =>
            a2.sequence_compactest >>= fun s2 =>
              streamOf fuel t rest >>= fun S =>
                .ok ((ch.1, s2, d2) :: S)) = .ok ((ch.1, seqc, defs) :: S2)
      rw [harm]
      simp only [exOk_bind]
      rw [hdefs]
      simp only [exOk_bind]
      rw [hseqc]
      simp only [exOk_bind]
      rw [hS2]
      simp only [exOk_bind]
    · rw [harm2]
      simp [bArms, List.append_assoc]
    · rw [hedg2]
      simp [bEdges, List.append_assoc]
    · rw [hch2]
      simp [bChains]
    · simp [hnames2]
    · intro e he
      rcases List.mem_cons.mp he with he | he
      · subst he
        exact ⟨hnseq, hgg.1, hgg.2⟩
      · exact hnorm2 e he

/-- Totality of the chain fold of fully_enumerate given a successful
extraction stream within the fuel depth. -/
theorem fe_fold_total (fuel : Nat) (t : Topo) :
    ∀ (chs : List (String × Nat)) (S : List (String × List CItem × List GD)) (ft : Topo),
      streamOf fuel t chs = .ok S →
      (∀ e ∈ S, gdDepthL e.2.2 < fuel) →
      ∃ H, (chs.foldlM
        (fun ft ch => do
          let arm ← t.armAt ch.2
          let defs ← get_grafts fuel t ch.2
          let seqc ← arm.sequence_compactest
          let r ← add_path fuel ft (.inr seqc) defs
          .ok { r.1 with chain_types := dictSet r.1.chain_types ch.1 r.2 })
        ft) = .ok H := by
  intro chs
  induction chs with
  | nil =>
    intro S ft _ _
    exact ⟨ft, exfoldlM_nil _ _⟩
  | cons ch rest ihc =>
    intro S ft hS hdep
    replace hS : (t.armAt ch.2 >>= fun a2 =>
        get_grafts fuel t ch.2 >>= fun d2 =>
          a2.sequence_compactest >>= fun s2 =>
            streamOf fuel t rest >>= fun S2 =>
              .ok ((ch.1, s2, d2) :: S2)) = .ok S := hS
    obtain ⟨arm, harm, hS⟩ := exbind_ok.mp hS
    obtain ⟨defs, hdefs, hS⟩ := exbind_ok.mp hS
    obtain ⟨seqc, hseqc, hS⟩ := exbind_ok.mp hS
    obtain ⟨S2, hS2, hS⟩ := exbind_ok.mp hS
    injection hS with hS
    subst hS
    have hd : gdDepthL defs < fuel := hdep _ (List.mem_cons_self _ _)
    obtain ⟨r, hr⟩ := add_path_inr_total fuel seqc defs ft (by omega) (by omega)
    obtain ⟨H, hH⟩ := ihc S2 { r.1 with chain_types := dictSet r.1.chain_types ch.1 r.2 }
      hS2 (fun e he => hdep e (List.mem_cons_of_mem _ he))
    refine ⟨H, ?_⟩
    rw [exfoldlM_cons]
    have hstep : (t.armAt ch.2 >>= fun arm =>
        get_grafts fuel t ch.2 >>= fun defs =>
          arm.sequence_compactest >>= fun seqc =>
            add_path fuel ft (.inr seqc) defs >>= fun r =>
              (.ok { r.1 with chain_types := dictSet r.1.chain_types ch.1 r.2 } :
                Except String Topo)) =
          .ok { r.1 with chain_types := dictSet r.1.chain_types ch.1 r.2 } := by
      rw [harm]
      simp only [exOk_bind]
      rw [hdefs]
      simp only [exOk_bind]
      rw [hseqc]
      simp only [exOk_bind]
      rw [hr]
      simp only [exOk_bind]
    show (t.armAt ch.2 >>= fun arm =>
        get_grafts fuel t ch.2 >>= fun defs =>
          arm.sequence_compactest >>= fun seqc =>
            add_path fuel ft (.inr seqc) defs >>= fun r =>
              (.ok { r.1 with chain_types := dictSet r.1.chain_types ch.1 r.2 } :
                Except String Topo)) >>=
      (fun ft2 => rest.foldlM
        (fun ft ch => do
          let arm ← t.armAt ch.2
          let defs ← get_grafts fuel t ch.2
          let seqc ← arm.sequence_compactest
          let r ← add_path fuel ft (.inr seqc) defs
          .ok { r.1 with chain_types := dictSet r.1.chain_types ch.1 r.2 })
        ft2) = .ok H
    rw [hstep]
    exact (exOk_bind _ _).trans hH

/-- The extraction stream of a built topology over its chain roots is the
stream it was built from. -/
theorem stream_built (fuel : Nat) (H : Topo)
    (S : List (String × List CItem × List GD))
    (harms : H.arm_types = bArms S)
    (hedges : H.edges = bEdges 0 S)
    (hnorm : ∀ e ∈ S, normalSeq e.2.1 ∧ (∀ gd ∈ e.2.2, GDNormal gd) ∧
      gdDepthL e.2.2 < fuel) :
    ∀ (S2 S1 : List (String × List CItem × List GD)), S = S1 ++ S2 →
      streamOf fuel H (chainRoots (bArms S1).length S2) = .ok S2 := by
  intro S2
  induction S2 with
  | nil =>
    intro S1 _
    rfl
  | cons entry rest ihs =>
    intro S1 hsplit
    obtain ⟨n, sc, d⟩ := entry
    have hmem : ((n, sc, d) : String × List CItem × List GD) ∈ S := by
      rw [hsplit]
      exact List.mem_append_right S1 (List.mem_cons_self _ _)
    obtain ⟨hnseq, hnd, hdepd⟩ := hnorm _ hmem
    have harmsplit : H.arm_types = bArms S1 ++ segFromDef sc ::
        (gdArms d ++ bArms rest) := by
      rw [harms, hsplit, bArms_append]
      simp [bArms, List.append_assoc]
    have harmAt : H.armAt (bArms S1).length = .ok (segFromDef sc) :=
      armAt_pre H (bArms S1) _ _ harmsplit
    have hedgesplit : H.edges = bEdges 0 S1 ++
        gdEdges ((bArms S1).length + 1) (bArms S1).length d ++
        bEdges ((bArms S1).length + 1 + (gdArms d).length) rest := by
      rw [hedges, hsplit, bEdges_append]
      rw [show 0 + (bArms S1).length = (bArms S1).length from by omega]
      simp [bEdges, List.append_assoc]
    have hgg : get_grafts fuel H (bArms S1).length = .ok d := by
      refine enum_built fuel H (bArms S1).length ((bArms S1).length + 1) d
        (bEdges 0 S1)
        (bEdges ((bArms S1).length + 1 + (gdArms d).length) rest)
        (bArms S1 ++ [segFromDef sc]) (bArms rest)
        hedgesplit ?_ ?_ ?_ (by simp) (by omega) hnd hdepd
      · intro e he
        have := bEdges_srcs S1 0 e he
        constructor <;> omega
      · intro e he
        have := bEdges_srcs rest ((bArms S1).length + 1 + (gdArms d).length) e he
        constructor <;> omega
      · rw [harmsplit]
        simp [List.append_assoc]
    have hcomp : (segFromDef sc).sequence_compactest = .ok sc :=
      compactest_roundtrip hnseq
    have hrest : streamOf fuel H
        (chainRoots ((bArms S1).length + 1 + (gdArms d).length) rest) = .ok rest := by
      have hlen1 : (bArms (S1 ++ [((n : String), sc, d)])).length =
          (bArms S1).length + 1 + (gdArms d).length := by
        rw [bArms_append]
        simp only [bArms, List.length_append, List.length_cons, List.length_nil]
        omega
      have := ihs (S1 ++ [(n, sc, d)]) (by rw [hsplit]; simp)
      rw [hlen1] at this
      exact this
    show (H.armAt (bArms S1).length >>= fun a2 =>
        get_grafts fuel H (bArms S1).length >>= fun d2 =>
          a2.sequence_compactest >>= fun s2 =>
            streamOf fuel H
              (chainRoots ((bArms S1).length + 1 + (gdArms d).length) rest) >>= fun SS =>
              .ok ((n, s2, d2) :: SS)) = .ok ((n, sc, d) :: rest)
    rw [harmAt]
    simp only [exOk_bind]
    rw [hgg]
    simp only [exOk_bind]
    rw [hcomp]
    simp only [exOk_bind]
    rw [hrest]
    simp only [exOk_bind]

/-- C4: for every topology whose chain-type names are distinct (a Python
dict invariant) on which fully_enumerate succeeds, running
fully_enumerate again on the output succeeds and returns a structurally
equal topology: same arm bead sequences, same edge list with attributes,
same chain-type map. -/
theorem c4_fully_enumerate_idempotent (fuel : Nat) (t H : Topo)
    (hnodup : (t.chain_types.map Prod.fst).Nodup)
    (h : fully_enumerate fuel t = .ok H) :
    ∃ H2, fully_enumerate fuel H = .ok H2 ∧ structEq H2 H := by
  replace h : (t.chain_types.foldlM
      (fun ft ch => do
        let arm ← t.armAt ch.2
        let defs ← get_grafts fuel t ch.2
        let seqc ← arm.sequence_compactest
        let r ← add_path fuel ft (.inr seqc) defs
        .ok { r.1 with chain_types := dictSet r.1.chain_types ch.1 r.2 })
      emptyTopo) = .ok H := h
  obtain ⟨S, hS, harms, hedges, hch, hnames, hnorm⟩ :=
    fe_fold_shape fuel t t.chain_types emptyTopo H h
  have e1 : H.arm_types = bArms S := harms.trans (by rfl)
  have e2 : H.edges = bEdges 0 S := hedges.trans (by rfl)
  have e3 : H.chain_types = bChains 0 [] S := hch.trans (by rfl)
  have hchroots : H.chain_types = chainRoots 0 S := by
    rw [e3, bChains_eq_chainRoots S 0 [] (by simpa [hnames] using hnodup)]
    simp
  have hstreamH : streamOf fuel H H.chain_types = .ok S := by
    rw [hchroots]
    exact stream_built fuel H S e1 e2 hnorm S [] rfl
  obtain ⟨H2, hH2⟩ := fe_fold_total fuel H H.chain_types S emptyTopo hstreamH
    (fun e he => (hnorm e he).2.2)
  obtain ⟨S2, hS2, harms2, hedges2, hch2, hnames2, hnorm2⟩ :=
    fe_fold_shape fuel H H.chain_types emptyTopo H2 hH2
  rw [hstreamH] at hS2
  injection hS2 with hS2
  subst hS2
  have f1 : H2.arm_types = bArms S := harms2.trans (by rfl)
  have f2 : H2.edges = bEdges 0 S := hedges2.trans (by rfl)
  have f3 : H2.chain_types = bChains 0 [] S := hch2.trans (by rfl)
  refine ⟨H2, hH2, ?_, ?_, ?_⟩
  · rw [f1, e1]
  · rw [f2, e2]
  · rw [f3, e3]

/-- Witness topology for C4: chain Ch of 3 A beads with a B2 graft at
position 1 carrying a doubly-grafted C sub-arm. -/
def c4T : Topo :=
  getOk (do
    let t1 := (emptyTopo.add_chaintype [CItem.pair "A" 3] (some "Ch")).1
    let t2 := (t1.add_armtype_fresh [CItem.pair "B" 2]).1
    let t3 := (t2.add_armtype_fresh [CItem.bare "C"]).1
    let t4 ← t3.add_graft 0 1 [1] 0 1
    t4.add_graft 1 2 [0] 0 2)

/-- The enumerated witness topology for C4. -/
def c4H : Topo := getOk (fully_enumerate 6 c4T)

/-- Witness for C4: the hypotheses hold on the concrete scenario and the
theorem yields idempotence there. -/
theorem c4_witness :
    ((c4T.chain_types.map Prod.fst).Nodup ∧ fully_enumerate 6 c4T = .ok c4H) ∧
    ∃ H2, fully_enumerate 6 c4H = .ok H2 ∧ structEq H2 c4H :=
  ⟨⟨by decide, by rfl⟩, c4_fully_enumerate_idempotent 6 c4T c4H (by decide) (by rfl)⟩

/-- foldlM over an appended list. -/
theorem exfoldlM_append {α β : Type} (f : β → α → Except String β) :
    ∀ (l1 l2 : List α) (b : β),
      List.foldlM f b (l1 ++ l2) =
        List.foldlM f b l1 >>= fun b2 => List.foldlM f b2 l2 := by
  intro l1
  induction l1 with
  | nil =>
    intro l2 b
    rw [List.nil_append, exfoldlM_nil, exOk_bind]
  | cons x xs ih =>
    intro l2 b
    rw [List.cons_append, exfoldlM_cons, exfoldlM_cons]
    cases f b x with
    | error e => rfl
    | ok b1 =>
      rw [exOk_bind, exOk_bind, ih]

/-- Built arms of concatenated branch lists. -/
theorem gdArms_append : ∀ (a b : List GD), gdArms (a ++ b) = gdArms a ++ gdArms b := by
  intro a
  induction a with
  | nil => intro b; simp [gdArms]
  | cons gd rest ih =>
    intro b
    rw [List.cons_append, gdArms_cons, gdArms_cons gd rest, ih, List.append_assoc]

/-- Built edges of concatenated branch lists. -/
theorem gdEdges_append : ∀ (a b : List GD) (L u : Nat),
    gdEdges L u (a ++ b) = gdEdges L u a ++ gdEdges (L + (gdArms a).length) u b := by
  intro a
  induction a with
  | nil =>
    intro b L u
    simp [gdEdges, gdArms]
  | cons gd rest ih =>
    intro b L u
    rw [List.cons_append, gdEdges_cons, ih, gdEdges_cons L u gd rest]
    rw [show L + (gdArms [gd]).length + (gdArms rest).length =
        L + (gdArms (gd :: rest)).length from by
      rw [gdArms_cons gd rest]
      simp only [List.length_append]
      omega]
    rw [List.append_assoc]

/-- Edge entries of concatenated branch lists. -/
theorem edgeEntries_append : ∀ (a b : List GD) (L : Nat),
    edgeEntries L (a ++ b) = edgeEntries L a ++ edgeEntries (L + (gdArms a).length) b := by
  intro a
  induction a with
  | nil =>
    intro b L
    simp [edgeEntries, gdArms]
  | cons gd rest ih =>
    intro b L
    obtain ⟨seq, pts, subs⟩ := gd
    have he1 : edgeEntries L ((GD.mk seq pts subs :: rest) ++ b) =
        (L, (⟨pts, 0, 1⟩ : GraftAttr)) ::
          edgeEntries (L + 1 + (gdArms subs).length) (rest ++ b) := by
      simp [edgeEntries]
    have he2 : edgeEntries L (GD.mk seq pts subs :: rest) =
        (L, (⟨pts, 0, 1⟩ : GraftAttr)) ::
          edgeEntries (L + 1 + (gdArms subs).length) rest := by
      simp [edgeEntries]
    rw [he1, ih, he2]
    rw [show L + 1 + (gdArms subs).length + (gdArms rest).length =
        L + (gdArms (GD.mk seq pts subs :: rest)).length from by
      simp only [gdArms, List.length_cons, List.length_append]
      omega]
    rfl

/-- Accumulator normalization of the get_grafts fold: a successful fold
appends a tail that is independent of the accumulator. -/
theorem gg_fold_acc (t : Topo) (fgg : Nat) :
    ∀ (es : List (Nat × GraftAttr)) (acc r : List GD),
      (es.foldlM
        (fun acc ed =>
          if ed.2.graft_from ≠ 0 then
            .error "Chain enumeration currently only works if grafting from bead 0"
          else if (occsOf ed.2).isEmpty then .ok acc
          else do
            let arm ← t.armAt ed.1
            let seqc ← arm.sequence_compactest
            let subs ← get_grafts fgg t ed.1
            .ok (acc ++ (occsOf ed.2).map fun p => GD.mk seqc [p] subs))
        acc) = .ok r →
      ∃ tl, (∀ acc2 : List GD,
        (es.foldlM
          (fun acc ed =>
            if ed.2.graft_from ≠ 0 then
              .error "Chain enumeration currently only works if grafting from bead 0"
            else if (occsOf ed.2).isEmpty then .ok acc
            else do
              let arm ← t.armAt ed.1
              let seqc ← arm.sequence_compactest
              let subs ← get_grafts fgg t ed.1
              .ok (acc ++ (occsOf ed.2).map fun p => GD.mk seqc [p] subs))
          acc2) = .ok (acc2 ++ tl)) ∧ r = acc ++ tl := by
  intro es
  induction es with
  | nil =>
    intro acc r h
    rw [exfoldlM_nil] at h
    injection h with h
    subst h
    exact ⟨[], fun acc2 => by rw [exfoldlM_nil, List.append_nil], by simp⟩
  | cons ed es ih =>
    intro acc r h
    rw [exfoldlM_cons] at h
    obtain ⟨mid, hmid, hrest⟩ := exbind_ok.mp h
    by_cases hgf : ed.2.graft_from = 0
    · rw [if_neg (by simp [hgf])] at hmid
      by_cases hocc : (occsOf ed.2).isEmpty = true
      · rw [if_pos hocc] at hmid
        injection hmid with hmid
        subst hmid
        obtain ⟨tl, hall, hr⟩ := ih acc r hrest
        refine ⟨tl, fun acc2 => ?_, hr⟩
        rw [exfoldlM_cons, if_neg (by simp [hgf]), if_pos hocc, exOk_bind]
        exact hall acc2
      · rw [if_neg hocc] at hmid
        obtain ⟨armB, harmB, hmid⟩ := exbind_ok.mp hmid
        obtain ⟨seqcB, hseqcB, hmid⟩ := exbind_ok.mp hmid
        obtain ⟨subsB, hsubsB, hmid⟩ := exbind_ok.mp hmid
        injection hmid with hmid
        subst hmid
        obtain ⟨tl2, hall2, hr2⟩ := ih _ r hrest
        refine ⟨(occsOf ed.2).map (fun p => GD.mk seqcB [p] subsB) ++ tl2,
          fun acc2 => ?_, by rw [hr2, List.append_assoc]⟩
        rw [exfoldlM_cons, if_neg (by simp [hgf]), if_neg hocc]
        rw [harmB]
        simp only [exOk_bind]
        rw [hseqcB]
        simp only [exOk_bind]
        rw [hsubsB]
        simp only [exOk_bind]
        rw [hall2 (acc2 ++ (occsOf ed.2).map fun p => GD.mk seqcB [p] subsB),
          List.append_assoc]
    · rw [if_pos hgf] at hmid
      exact absurd hmid (by simp)

/-- Occurrence-level bisimulation of bead expansion: expanding each graft
occurrence of one source edge equals expanding the corresponding built
entries, given the recursion hypothesis at the expansion fuel. -/
theorem expand_occs_bisim (t H : Topo) (f2 fgg : Nat) (BI : List Nat)
    (hIH : ∀ (fg a v L : Nat) (D : List GD)
      (A B : List (Nat × Nat × GraftAttr)) (pre post : List Segment)
      (armG armH : Segment),
      get_grafts fg t a = .ok D →
      t.armAt a = .ok armG →
      H.armAt v = .ok armH →
      armH.sequence = armG.sequence →
      H.edges = A ++ gdEdges L v D ++ B →
      (∀ e ∈ A, e.1 ≠ v ∧ ¬(L ≤ e.1 ∧ e.1 < L + (gdArms D).length)) →
      (∀ e ∈ B, e.1 ≠ v ∧ ¬(L ≤ e.1 ∧ e.1 < L + (gdArms D).length)) →
      H.arm_types = pre ++ gdArms D ++ post →
      pre.length = L →
      v < L →
      ∀ (parent : Option Nat) (st : List Species × List (Nat × Nat)),
        expandRec f2 t a parent st = expandRec f2 H v parent st)
    (b : Nat) (armB : Segment) (seqcB : List CItem) (subsB : List GD)
    (harmB : t.armAt b = .ok armB)
    (hseqcB : armB.sequence_compactest = .ok seqcB)
    (hsubsB : get_grafts fgg t b = .ok subsB) :
    ∀ (occs : List Int) (L2 v : Nat) (A2 B2 : List (Nat × Nat × GraftAttr))
      (pre2 post2 : List Segment) (st0 : List Species × List (Nat × Nat)),
      H.edges = A2 ++ gdEdges L2 v (occs.map fun p => GD.mk seqcB [p] subsB) ++ B2 →
      (∀ e ∈ A2, ¬(L2 ≤ e.1 ∧
        e.1 < L2 + (gdArms (occs.map fun p => GD.mk seqcB [p] subsB)).length)) →
      (∀ e ∈ B2, ¬(L2 ≤ e.1 ∧
        e.1 < L2 + (gdArms (occs.map fun p => GD.mk seqcB [p] subsB)).length)) →
      H.arm_types = pre2 ++ gdArms (occs.map fun p => GD.mk seqcB [p] subsB) ++ post2 →
      pre2.length = L2 →
      v < L2 →
      (occs.foldlM
        (fun acc2 p => do
          let gi ← pyIdx BI p
          expandRec f2 t b (some gi) acc2)
        st0) =
      ((edgeEntries L2 (occs.map fun p => GD.mk seqcB [p] subsB)).foldlM
        (fun acc ed =>
          if ed.2.graft_from ≠ 0 then
            .error "Chain enumeration currently only works if grafting from bead 0"
          else
            (occsOf ed.2).foldlM
              (fun acc2 p => do
                let gi ← pyIdx BI p
                expandRec f2 H ed.1 (some gi) acc2)
              acc)
        st0) := by
  intro occs
  induction occs with
  | nil =>
    intro L2 v A2 B2 pre2 post2 st0 _ _ _ _ _ _
    simp only [List.map_nil]
    rw [show edgeEntries L2 ([] : List GD) = [] from by simp [edgeEntries]]
    rfl
  | cons p occs ihp =>
    intro L2 v A2 B2 pre2 post2 st0 hedges2 hA2 hB2 harms2 hpre2 hv2
    simp only [List.map_cons] at hedges2 hA2 hB2 harms2 ⊢
    have hGlen : (gdArms (GD.mk seqcB [p] subsB :: occs.map fun p => GD.mk seqcB [p] subsB)).length =
        (gdArms subsB).length +
          (gdArms (occs.map fun p => GD.mk seqcB [p] subsB)).length + 1 := by
      simp only [gdArms, List.length_cons, List.length_append]
    have harm0 : H.arm_types = pre2 ++ segFromDef seqcB ::
        ((gdArms subsB ++ gdArms (occs.map fun p => GD.mk seqcB [p] subsB)) ++ post2) := by
      rw [harms2]
      simp [gdArms, List.append_assoc]
    have harmAtH : H.armAt L2 = .ok (segFromDef seqcB) := by
      rw [← hpre2]
      exact armAt_pre H pre2 _ _ harm0
    have hedgesS : H.edges = (A2 ++ [((v : Nat), L2, (⟨[p], 0, 1⟩ : GraftAttr))]) ++
        gdEdges (L2 + 1) L2 subsB ++
        (gdEdges (L2 + 1 + (gdArms subsB).length) v (occs.map fun p => GD.mk seqcB [p] subsB)
          ++ B2) := by
      rw [hedges2]
      simp [gdEdges, List.append_assoc]
    have hAS : ∀ e ∈ A2 ++ [((v : Nat), L2, (⟨[p], 0, 1⟩ : GraftAttr))],
        e.1 ≠ L2 ∧ ¬(L2 + 1 ≤ e.1 ∧ e.1 < L2 + 1 + (gdArms subsB).length) := by
      intro e he
      rcases List.mem_append.mp he with he | he
      · have := hA2 e he
        constructor <;> omega
      · have he2 := List.mem_singleton.mp he
        subst he2
        refine ⟨?_, ?_⟩
        · show v ≠ L2
          omega
        · show ¬(L2 + 1 ≤ v ∧ v < L2 + 1 + (gdArms subsB).length)
          omega
    have hBS : ∀ e ∈ gdEdges (L2 + 1 + (gdArms subsB).length) v
        (occs.map fun p => GD.mk seqcB [p] subsB) ++ B2,
        e.1 ≠ L2 ∧ ¬(L2 + 1 ≤ e.1 ∧ e.1 < L2 + 1 + (gdArms subsB).length) := by
      intro e he
      rcases List.mem_append.mp he with he | he
      · rcases gdEdges_srcs _ (L2 + 1 + (gdArms subsB).length) v e he with h1 | ⟨h1, h2⟩
        · constructor <;> omega
        · constructor <;> omega
      · have := hB2 e he
        constructor <;> omega
    have harmsS : H.arm_types = (pre2 ++ [segFromDef seqcB]) ++ gdArms subsB ++
        ((gdArms (occs.map fun p => GD.mk seqcB [p] subsB)) ++ post2) := by
      rw [harms2]
      simp [gdArms, List.append_assoc]
    have hpreS : (pre2 ++ [segFromDef seqcB]).length = L2 + 1 := by
      simp [hpre2]
    have hrec : ∀ (parent : Option Nat) (st : List Species × List (Nat × Nat)),
        expandRec f2 t b parent st = expandRec f2 H L2 parent st :=
      hIH fgg b L2 (L2 + 1) subsB
        (A2 ++ [((v : Nat), L2, (⟨[p], 0, 1⟩ : GraftAttr))])
        (gdEdges (L2 + 1 + (gdArms subsB).length) v (occs.map fun p => GD.mk seqcB [p] subsB)
          ++ B2)
        (pre2 ++ [segFromDef seqcB])
        ((gdArms (occs.map fun p => GD.mk seqcB [p] subsB)) ++ post2)
        armB (segFromDef seqcB)
        hsubsB harmB harmAtH (normal_of_compactest hseqcB).2
        hedgesS hAS hBS harmsS hpreS (by omega)
    have hee : edgeEntries L2 (GD.mk seqcB [p] subsB ::
        (occs.map fun p => GD.mk seqcB [p] subsB)) =
        (L2, (⟨[p], 0, 1⟩ : GraftAttr)) ::
          edgeEntries (L2 + 1 + (gdArms subsB).length)
            (occs.map fun p => GD.mk seqcB [p] subsB) := by
      simp [edgeEntries]
    rw [hee, exfoldlM_cons, exfoldlM_cons]
    show ((pyIdx BI p >>= fun gi => expandRec f2 t b (some gi) st0) >>=
        fun b2 => occs.foldlM
          (fun acc2 p => do
            let gi ← pyIdx BI p
            expandRec f2 t b (some gi) acc2)
          b2) =
      (((pyIdx BI p >>= fun gi => expandRec f2 H L2 (some gi) st0) >>=
          fun b2 => (.ok b2 : Except String (List Species × List (Nat × Nat)))) >>=
        fun b2 => (edgeEntries (L2 + 1 + (gdArms subsB).length)
            (occs.map fun p => GD.mk seqcB [p] subsB)).foldlM
          (fun acc ed =>
            if ed.2.graft_from ≠ 0 then
              .error "Chain enumeration currently only works if grafting from bead 0"
            else
              (occsOf ed.2).foldlM
                (fun acc2 p => do
                  let gi ← pyIdx BI p
                  expandRec f2 H ed.1 (some gi) acc2)
                acc)
          b2)
    rw [exbind_pure]
    rw [show (pyIdx BI p >>= fun gi => expandRec f2 t b (some gi) st0) =
        (pyIdx BI p >>= fun gi => expandRec f2 H L2 (some gi) st0) from
      exbind_congr fun gi => hrec (some gi) st0]
    refine exbind_congr fun st1 => ?_
    refine ihp (L2 + 1 + (gdArms subsB).length) v
      (A2 ++ (((v : Nat), L2, (⟨[p], 0, 1⟩ : GraftAttr)) :: gdEdges (L2 + 1) L2 subsB))
      B2 (pre2 ++ segFromDef seqcB :: gdArms subsB) post2 st1 ?_ ?_ ?_ ?_ ?_ (by omega)
    · rw [hedges2]
      simp [gdEdges, List.append_assoc]
    · intro e he
      rcases List.mem_append.mp he with he | he
      · have := hA2 e he
        omega
      · rcases List.mem_cons.mp he with he | he
        · subst he
          show ¬(L2 + 1 + (gdArms subsB).length ≤ v ∧
            v < L2 + 1 + (gdArms subsB).length +
              (gdArms (occs.map fun p => GD.mk seqcB [p] subsB)).length)
          omega
        · rcases gdEdges_srcs subsB (L2 + 1) L2 e he with h1 | ⟨h1, h2⟩ <;> omega
    · intro e he
      have := hB2 e he
      omega
    · rw [harms2]
      simp [gdArms, List.append_assoc]
    · simp only [List.length_append, List.length_cons, hpre2]
      omega

/-- Edge-level bisimulation of bead expansion: folding the source's
outgoing edges equals folding the built region's entries, given the
enumeration fold and the recursion hypothesis at the expansion fuel. -/
theorem expand_fold_bisim (t H : Topo) (f2 fgg : Nat) (BI : List Nat)
    (hIH : ∀ (fg a v L : Nat) (D : List GD)
      (A B : List (Nat × Nat × GraftAttr)) (pre post : List Segment)
      (armG armH : Segment),
      get_grafts fg t a = .ok D →
      t.armAt a = .ok armG →
      H.armAt v = .ok armH →
      armH.sequence = armG.sequence →
      H.edges = A ++ gdEdges L v D ++ B →
      (∀ e ∈ A, e.1 ≠ v ∧ ¬(L ≤ e.1 ∧ e.1 < L + (gdArms D).length)) →
      (∀ e ∈ B, e.1 ≠ v ∧ ¬(L ≤ e.1 ∧ e.1 < L + (gdArms D).length)) →
      H.arm_types = pre ++ gdArms D ++ post →
      pre.length = L →
      v < L →
      ∀ (parent : Option Nat) (st : List Species × List (Nat × Nat)),
        expandRec f2 t a parent st = expandRec f2 H v parent st) :
    ∀ (es : List (Nat × GraftAttr)) (D2 : List GD) (L2 v : Nat)
      (A2 B2 : List (Nat × Nat × GraftAttr)) (pre2 post2 : List Segment)
      (st0 : List Species × List (Nat × Nat)),
      (es.foldlM
        (fun acc ed =>
          if ed.2.graft_from ≠ 0 then
            .error "Chain enumeration currently only works if grafting from bead 0"
          else if (occsOf ed.2).isEmpty then .ok acc
          else do
            let arm ← t.armAt ed.1
            let seqc ← arm.sequence_compactest
            let subs ← get_grafts fgg t ed.1
            .ok (acc ++ (occsOf ed.2).map fun p => GD.mk seqc [p] subs))
        []) = .ok D2 →
      H.edges = A2 ++ gdEdges L2 v D2 ++ B2 →
      (∀ e ∈ A2, ¬(L2 ≤ e.1 ∧ e.1 < L2 + (gdArms D2).length)) →
      (∀ e ∈ B2, ¬(L2 ≤ e.1 ∧ e.1 < L2 + (gdArms D2).length)) →
      H.arm_types = pre2 ++ gdArms D2 ++ post2 →
      pre2.length = L2 →
      v < L2 →
      (es.foldlM
        (fun acc ed =>
          if ed.2.graft_from ≠ 0 then
            .error "Chain enumeration currently only works if grafting from bead 0"
          else
            (occsOf ed.2).foldlM
              (fun acc2 p => do
                let gi ← pyIdx BI p
                expandRec f2 t ed.1 (some gi) acc2)
              acc)
        st0) =
      ((edgeEntries L2 D2).foldlM
        (fun acc ed =>
          if ed.2.graft_from ≠ 0 then
            .error "Chain enumeration currently only works if grafting from bead 0"
          else
            (occsOf ed.2).foldlM
              (fun acc2 p => do
                let gi ← pyIdx BI p
                expandRec f2 H ed.1 (some gi) acc2)
              acc)
        st0) := by
  intro es
  induction es with
  | nil =>
    intro D2 L2 v A2 B2 pre2 post2 st0 hgg _ _ _ _ _ _
    rw [exfoldlM_nil] at hgg
    injection hgg with hgg
    subst hgg
    rw [show edgeEntries L2 ([] : List GD) = [] from by simp [edgeEntries]]
    rfl
  | cons ed es ihe =>
    intro D2 L2 v A2 B2 pre2 post2 st0 hgg hedges2 hA2 hB2 harms2 hpre2 hv2
    rw [exfoldlM_cons] at hgg
    obtain ⟨mid, hmid, hrest⟩ := exbind_ok.mp hgg
    by_cases hgf : ed.2.graft_from = 0
    · rw [if_neg (by simp [hgf])] at hmid
      by_cases hocc : (occsOf ed.2).isEmpty = true
      · rw [if_pos hocc] at hmid
        injection hmid with hmid
        subst hmid
        rw [exfoldlM_cons]
        show ((if ed.2.graft_from ≠ 0 then
            (.error "Chain enumeration currently only works if grafting from bead 0" :
              Except String (List Species × List (Nat × Nat)))
          else
            (occsOf ed.2).foldlM
              (fun acc2 p => do
                let gi ← pyIdx BI p
                expandRec f2 t ed.1 (some gi) acc2)
              st0) >>= fun b2 => es.foldlM
          (fun acc ed =>
            if ed.2.graft_from ≠ 0 then
              .error "Chain enumeration currently only works if grafting from bead 0"
            else
              (occsOf ed.2).foldlM
                (fun acc2 p => do
                  let gi ← pyIdx BI p
                  expandRec f2 t ed.1 (some gi) acc2)
                acc)
          b2) = _
        rw [if_neg (by simp [hgf]), show occsOf ed.2 = [] from List.isEmpty_iff.mp hocc,
          exfoldlM_nil, exOk_bind]
        exact ihe D2 L2 v A2 B2 pre2 post2 st0 hrest hedges2 hA2 hB2 harms2 hpre2 hv2
      · rw [if_neg hocc] at hmid
        obtain ⟨armB, harmB, hmid⟩ := exbind_ok.mp hmid
        obtain ⟨seqcB, hseqcB, hmid⟩ := exbind_ok.mp hmid
        obtain ⟨subsB, hsubsB, hmid⟩ := exbind_ok.mp hmid
        injection hmid with hmid
        rw [List.nil_append] at hmid
        subst hmid
        obtain ⟨tl, hall, hD2⟩ := gg_fold_acc t fgg es _ D2 hrest
        have htl : (es.foldlM
            (fun acc ed =>
              if ed.2.graft_from ≠ 0 then
                .error "Chain enumeration currently only works if grafting from bead 0"
              else if (occsOf ed.2).isEmpty then .ok acc
              else do
                let arm ← t.armAt ed.1
                let seqc ← arm.sequence_compactest
                let subs ← get_grafts fgg t ed.1
                .ok (acc ++ (occsOf ed.2).map fun p => GD.mk seqc [p] subs))
            []) = .ok tl := by
          have := hall []
          rwa [List.nil_append] at this
        subst hD2
        have hArmsLen : (gdArms (((occsOf ed.2).map fun p => GD.mk seqcB [p] subsB) ++ tl)).length =
            (gdArms ((occsOf ed.2).map fun p => GD.mk seqcB [p] subsB)).length +
              (gdArms tl).length := by
          rw [gdArms_append]
          simp
        have hedgesplitB : H.edges = A2 ++
            gdEdges L2 v ((occsOf ed.2).map fun p => GD.mk seqcB [p] subsB) ++
            (gdEdges (L2 + (gdArms ((occsOf ed.2).map fun p => GD.mk seqcB [p] subsB)).length)
              v tl ++ B2) := by
          rw [hedges2, gdEdges_append]
          simp [List.append_assoc]
        have hheads : ((occsOf ed.2).foldlM
            (fun acc2 p => do
              let gi ← pyIdx BI p
              expandRec f2 t ed.1 (some gi) acc2)
            st0) =
          ((edgeEntries L2 ((occsOf ed.2).map fun p => GD.mk seqcB [p] subsB)).foldlM
            (fun acc ed =>
              if ed.2.graft_from ≠ 0 then
                .error "Chain enumeration currently only works if grafting from bead 0"
              else
                (occsOf ed.2).foldlM
                  (fun acc2 p => do
                    let gi ← pyIdx BI p
                    expandRec f2 H ed.1 (some gi) acc2)
                  acc)
            st0) := by
          refine expand_occs_bisim t H f2 fgg BI hIH ed.1 armB seqcB subsB
            harmB hseqcB hsubsB (occsOf ed.2) L2 v A2
            (gdEdges (L2 + (gdArms ((occsOf ed.2).map fun p => GD.mk seqcB [p] subsB)).length)
              v tl ++ B2)
            pre2 ((gdArms tl) ++ post2) st0 hedgesplitB ?_ ?_ ?_ hpre2 hv2
          · intro e he
            have := hA2 e he
            omega
          · intro e he
            rcases List.mem_append.mp he with he | he
            · rcases gdEdges_srcs tl _ v e he with h1 | ⟨h1, h2⟩
              · omega
              · omega
            · have := hB2 e he
              omega
          · rw [harms2, gdArms_append]
            simp [List.append_assoc]
        rw [exfoldlM_cons]
        show ((if ed.2.graft_from ≠ 0 then
            (.error "Chain enumeration currently only works if grafting from bead 0" :
              Except String (List Species × List (Nat × Nat)))
          else
            (occsOf ed.2).foldlM
              (fun acc2 p => do
                let gi ← pyIdx BI p
                expandRec f2 t ed.1 (some gi) acc2)
              st0) >>= fun b2 => es.foldlM
          (fun acc ed =>
            if ed.2.graft_from ≠ 0 then
              .error "Chain enumeration currently only works if grafting from bead 0"
            else
              (occsOf ed.2).foldlM
                (fun acc2 p => do
                  let gi ← pyIdx BI p
                  expandRec f2 t ed.1 (some gi) acc2)
                acc)
          b2) = _
        rw [if_neg (by simp [hgf]), hheads]
        rw [show edgeEntries L2 (((occsOf ed.2).map fun p => GD.mk seqcB [p] subsB) ++ tl) =
            edgeEntries L2 ((occsOf ed.2).map fun p => GD.mk seqcB [p] subsB) ++
              edgeEntries (L2 + (gdArms ((occsOf ed.2).map fun p => GD.mk seqcB [p] subsB)).length)
                tl from edgeEntries_append _ _ _]
        rw [exfoldlM_append]
        refine exbind_congr fun st1 => ?_
        refine ihe tl
          (L2 + (gdArms ((occsOf ed.2).map fun p => GD.mk seqcB [p] subsB)).length) v
          (A2 ++ gdEdges L2 v ((occsOf ed.2).map fun p => GD.mk seqcB [p] subsB)) B2
          (pre2 ++ gdArms ((occsOf ed.2).map fun p => GD.mk seqcB [p] subsB)) post2 st1
          htl ?_ ?_ ?_ ?_ ?_ (by omega)
        · rw [hedges2, gdEdges_append]
          simp [List.append_assoc]
        · intro e he
          rcases List.mem_append.mp he with he | he
          · have := hA2 e he
            rw [hArmsLen] at this
            omega
          · rcases gdEdges_srcs _ L2 v e he with h1 | ⟨h1, h2⟩
            · omega
            · omega
        · intro e he
          have := hB2 e he
          rw [hArmsLen] at this
          omega
        · rw [harms2, gdArms_append]
          simp [List.append_assoc]
        · simp [hpre2]
    · rw [if_pos hgf] at hmid
      exact absurd hmid (by simp)

/-- Arm-level bisimulation of bead expansion: expanding a source arm
equals expanding the corresponding built arm region, at every expansion
fuel, with identical states and errors. -/
theorem expand_bisim (t H : Topo) :
    ∀ (f2 : Nat), ∀ (fg a v L : Nat) (D : List GD)
      (A B : List (Nat × Nat × GraftAttr)) (pre post : List Segment)
      (armG armH : Segment),
      get_grafts fg t a = .ok D →
      t.armAt a = .ok armG →
      H.armAt v = .ok armH →
      armH.sequence = armG.sequence →
      H.edges = A ++ gdEdges L v D ++ B →
      (∀ e ∈ A, e.1 ≠ v ∧ ¬(L ≤ e.1 ∧ e.1 < L + (gdArms D).length)) →
      (∀ e ∈ B, e.1 ≠ v ∧ ¬(L ≤ e.1 ∧ e.1 < L + (gdArms D).length)) →
      H.arm_types = pre ++ gdArms D ++ post →
      pre.length = L →
      v < L →
      ∀ (parent : Option Nat) (st : List Species × List (Nat × Nat)),
        expandRec f2 t a parent st = expandRec f2 H v parent st := by
  intro f2
  induction f2 with
  | zero =>
    intro fg a v L D A B pre post armG armH _ _ _ _ _ _ _ _ _ _ parent st
    rfl
  | succ f2 ihf =>
    intro fg a v L D A B pre post armG armH hgg harmG harmH hseq hedges hA hB
      harms hpre hv parent st
    cases fg with
    | zero => exact absurd hgg (by simp [get_grafts])
    | succ fgg =>
      rw [get_grafts] at hgg
      have hgg2 : ((t.outEdges a).foldlM
          (fun acc ed =>
            if ed.2.graft_from ≠ 0 then
              .error "Chain enumeration currently only works if grafting from bead 0"
            else if (occsOf ed.2).isEmpty then .ok acc
            else do
              let arm ← t.armAt ed.1
              let seqc ← arm.sequence_compactest
              let subs ← get_grafts fgg t ed.1
              .ok (acc ++ (occsOf ed.2).map fun p => GD.mk seqc [p] subs))
          []) = .ok D := hgg
      have houtEH : H.outEdges v = edgeEntries L D := by
        show H.edges.filterMap
            (fun e => if e.1 = v then some (e.2.1, e.2.2) else none) = edgeEntries L D
        rw [hedges, List.filterMap_append, List.filterMap_append]
        have hfa : A.filterMap (fun e : Nat × Nat × GraftAttr =>
            if e.1 = v then some (e.2.1, e.2.2) else none) = [] :=
          filterMap_none _ A (fun e he => if_neg (hA e he).1)
        have hfb : B.filterMap (fun e : Nat × Nat × GraftAttr =>
            if e.1 = v then some (e.2.1, e.2.2) else none) = [] :=
          filterMap_none _ B (fun e he => if_neg (hB e he).1)
        rw [hfa, hfb, gdEdges_pick v D L hv]
        simp
      rw [expandRec, expandRec, harmG, harmH, exOk_bind, exOk_bind]
      cases parent with
      | none =>
        show ((.ok ([] : List (Nat × Nat)) : Except String (List (Nat × Nat))) >>=
            fun connector => (t.outEdges a).foldlM
              (fun acc ed =>
                if ed.2.graft_from ≠ 0 then
                  .error "Chain enumeration currently only works if grafting from bead 0"
                else
                  (occsOf ed.2).foldlM
                    (fun acc2 p => do
                      let gi ← pyIdx (List.range' st.1.length armG.sequence.length) p
                      expandRec f2 t ed.1 (some gi) acc2)
                    acc)
              (st.1 ++ armG.sequence,
                st.2 ++ connector ++
                  ((List.range' st.1.length armG.sequence.length).drop 1).map
                    fun ii => (ii - 1, ii))) =
          ((.ok ([] : List (Nat × Nat)) : Except String (List (Nat × Nat))) >>=
            fun connector => (H.outEdges v).foldlM
              (fun acc ed =>
                if ed.2.graft_from ≠ 0 then
                  .error "Chain enumeration currently only works if grafting from bead 0"
                else
                  (occsOf ed.2).foldlM
                    (fun acc2 p => do
                      let gi ← pyIdx (List.range' st.1.length armH.sequence.length) p
                      expandRec f2 H ed.1 (some gi) acc2)
                    acc)
              (st.1 ++ armH.sequence,
                st.2 ++ connector ++
                  ((List.range' st.1.length armH.sequence.length).drop 1).map
                    fun ii => (ii - 1, ii)))
        rw [hseq, houtEH]
        refine exbind_congr fun connector => ?_
        exact expand_fold_bisim t H f2 fgg
          (List.range' st.1.length armG.sequence.length) ihf
          (t.outEdges a) D L v A B pre post
          (st.1 ++ armG.sequence,
            st.2 ++ connector ++
              ((List.range' st.1.length armG.sequence.length).drop 1).map
                fun ii => (ii - 1, ii))
          hgg2 hedges (fun e he => (hA e he).2) (fun e he => (hB e he).2)
          harms hpre hv
      | some g =>
        show (((pyIdx (List.range' st.1.length armG.sequence.length) 0).map
            fun b0 => [(g, b0)]) >>=
            fun connector => (t.outEdges a).foldlM
              (fun acc ed =>
                if ed.2.graft_from ≠ 0 then
                  .error "Chain enumeration currently only works if grafting from bead 0"
                else
                  (occsOf ed.2).foldlM
                    (fun acc2 p => do
                      let gi ← pyIdx (List.range' st.1.length armG.sequence.length) p
                      expandRec f2 t ed.1 (some gi) acc2)
                    acc)
              (st.1 ++ armG.sequence,
                st.2 ++ connector ++
                  ((List.range' st.1.length armG.sequence.length).drop 1).map
                    fun ii => (ii - 1, ii))) =
          (((pyIdx (List.range' st.1.length armH.sequence.length) 0).map
            fun b0 => [(g, b0)]) >>=
            fun connector => (H.outEdges v).foldlM
              (fun acc ed =>
                if ed.2.graft_from ≠ 0 then
                  .error "Chain enumeration currently only works if grafting from bead 0"
                else
                  (occsOf ed.2).foldlM
                    (fun acc2 p => do
                      let gi ← pyIdx (List.range' st.1.length armH.sequence.length) p
                      expandRec f2 H ed.1 (some gi) acc2)
                    acc)
              (st.1 ++ armH.sequence,
                st.2 ++ connector ++
                  ((List.range' st.1.length armH.sequence.length).drop 1).map
                    fun ii => (ii - 1, ii)))
        rw [hseq, houtEH]
        refine exbind_congr fun connector => ?_
        exact expand_fold_bisim t H f2 fgg
          (List.range' st.1.length armG.sequence.length) ihf
          (t.outEdges a) D L v A B pre post
          (st.1 ++ armG.sequence,
            st.2 ++ connector ++
              ((List.range' st.1.length armG.sequence.length).drop 1).map
                fun ii => (ii - 1, ii))
          hgg2 hedges (fun e he => (hA e he).2) (fun e he => (hB e he).2)
          harms hpre hv

/-- C5: bead expansion is unchanged by full enumeration: for a topology
with distinct chain-type names on which fully_enumerate succeeds,
expand_to_beads of the original and of the enumerated topology agree at
every expansion fuel: same per-chain names in order, same node lists,
same edge lists. -/
theorem c5_expand_to_beads_unchanged (fuelE f2 : Nat) (t H : Topo)
    (hnodup : (t.chain_types.map Prod.fst).Nodup)
    (h : fully_enumerate fuelE t = .ok H) :
    expand_to_beads f2 t = expand_to_beads f2 H := by
  replace h : (t.chain_types.foldlM
      (fun ft ch => do
        let arm ← t.armAt ch.2
        let defs ← get_grafts fuelE t ch.2
        let seqc ← arm.sequence_compactest
        let r ← add_path fuelE ft (.inr seqc) defs
        .ok { r.1 with chain_types := dictSet r.1.chain_types ch.1 r.2 })
      emptyTopo) = .ok H := h
  obtain ⟨S, hS, harms, hedges, hch, hnames, hnorm⟩ :=
    fe_fold_shape fuelE t t.chain_types emptyTopo H h
  have e1 : H.arm_types = bArms S := harms.trans (by rfl)
  have e2 : H.edges = bEdges 0 S := hedges.trans (by rfl)
  have e3 : H.chain_types = bChains 0 [] S := hch.trans (by rfl)
  have hchroots : H.chain_types = chainRoots 0 S := by
    rw [e3, bChains_eq_chainRoots S 0 [] (by simpa [hnames] using hnodup)]
    simp
  suffices hfold : ∀ (chs : List (String × Nat))
      (S2 S1 : List (String × List CItem × List GD)),
      S = S1 ++ S2 →
      streamOf fuelE t chs = .ok S2 →
      ∀ (acc : List (String × (List Species × List (Nat × Nat)))),
        (chs.foldlM
          (fun chains ch => do
            let c ← expandRec f2 t ch.2 none ([], [])
            .ok (chains ++ [(ch.1, c)]))
          acc) =
        ((chainRoots (bArms S1).length S2).foldlM
          (fun chains ch => do
            let c ← expandRec f2 H ch.2 none ([], [])
            .ok (chains ++ [(ch.1, c)]))
          acc) by
    unfold expand_to_beads
    rw [hchroots]
    exact hfold t.chain_types S [] rfl hS []
  intro chs
  induction chs with
  | nil =>
    intro S2 S1 _ hstream acc
    injection hstream with hstream
    subst hstream
    rfl
  | cons ch rest ihch =>
    intro S2 S1 hsplit hstream acc
    replace hstream : (t.armAt ch.2 >>= fun a2 =>
        get_grafts fuelE t ch.2 >>= fun d2 =>
          a2.sequence_compactest >>= fun s2 =>
            streamOf fuelE t rest >>= fun SS =>
              .ok ((ch.1, s2, d2) :: SS)) = .ok S2 := hstream
    obtain ⟨arm, harm, hstream⟩ := exbind_ok.mp hstream
    obtain ⟨defs, hdefs, hstream⟩ := exbind_ok.mp hstream
    obtain ⟨seqc, hseqc, hstream⟩ := exbind_ok.mp hstream
    obtain ⟨SS, hSS, hstream⟩ := exbind_ok.mp hstream
    injection hstream with hstream
    subst hstream
    have harmsplit : H.arm_types = bArms S1 ++ segFromDef seqc ::
        (gdArms defs ++ bArms SS) := by
      rw [e1, hsplit, bArms_append]
      simp [bArms, List.append_assoc]
    have harmAtH : H.armAt (bArms S1).length = .ok (segFromDef seqc) :=
      armAt_pre H (bArms S1) _ _ harmsplit
    have hedgesplit : H.edges = bEdges 0 S1 ++
        gdEdges ((bArms S1).length + 1) (bArms S1).length defs ++
        bEdges ((bArms S1).length + 1 + (gdArms defs).length) SS := by
      rw [e2, hsplit, bEdges_append]
      rw [show 0 + (bArms S1).length = (bArms S1).length from by omega]
      simp [bEdges, List.append_assoc]
    have hexp : expandRec f2 t ch.2 none ([], []) =
        expandRec f2 H (bArms S1).length none ([], []) := by
      refine expand_bisim t H f2 fuelE ch.2 (bArms S1).length ((bArms S1).length + 1) defs
        (bEdges 0 S1) (bEdges ((bArms S1).length + 1 + (gdArms defs).length) SS)
        (bArms S1 ++ [segFromDef seqc]) (bArms SS) arm (segFromDef seqc)
        hdefs harm harmAtH (normal_of_compactest hseqc).2
        hedgesplit ?_ ?_ ?_ (by simp) (by omega) none ([], [])
      · intro e he
        have := bEdges_srcs S1 0 e he
        constructor <;> omega
      · intro e he
        have := bEdges_srcs SS ((bArms S1).length + 1 + (gdArms defs).length) e he
        constructor <;> omega
      · rw [harmsplit]
        simp [List.append_assoc]
    have hlen1 : (bArms (S1 ++ [((ch.1 : String), seqc, defs)])).length =
        (bArms S1).length + 1 + (gdArms defs).length := by
      rw [bArms_append]
      simp only [bArms, List.length_append, List.length_cons, List.length_nil]
      omega
    have hrest := ihch SS (S1 ++ [(ch.1, seqc, defs)]) (by rw [hsplit]; simp) hSS
    rw [hlen1] at hrest
    rw [show chainRoots (bArms S1).length (((ch.1 : String), seqc, defs) :: SS) =
        ((ch.1 : String), (bArms S1).length) ::
          chainRoots ((bArms S1).length + 1 + (gdArms defs).length) SS from rfl]
    rw [exfoldlM_cons, exfoldlM_cons]
    show (expandRec f2 t ch.2 none ([], []) >>= fun c =>
        (.ok (acc ++ [(ch.1, c)]) :
          Except String (List (String × (List Species × List (Nat × Nat)))))) >>=
      (fun b2 => rest.foldlM
        (fun chains ch => do
          let c ← expandRec f2 t ch.2 none ([], [])
          .ok (chains ++ [(ch.1, c)]))
        b2) =
      ((expandRec f2 H (bArms S1).length none ([], []) >>= fun c =>
        (.ok (acc ++ [(ch.1, c)]) :
          Except String (List (String × (List Species × List (Nat × Nat)))))) >>=
      (fun b2 => (chainRoots ((bArms S1).length + 1 + (gdArms defs).length) SS).foldlM
        (fun chains ch => do
          let c ← expandRec f2 H ch.2 none ([], [])
          .ok (chains ++ [(ch.1, c)]))
        b2))
    rw [hexp]
    exact exbind_congr fun b2 => hrest b2

/-- Witness for C5: the hypotheses hold on the concrete scenario and the
theorem yields equal bead expansions there. -/
theorem c5_witness :
    ((c4T.chain_types.map Prod.fst).Nodup ∧ fully_enumerate 6 c4T = .ok c4H) ∧
    expand_to_beads 6 c4T = expand_to_beads 6 c4H :=
  ⟨⟨by decide, by rfl⟩, c5_expand_to_beads_unchanged 6 6 c4T c4H (by decide) (by rfl)⟩
